import Mathlib

/-!
# NAPPI autocomplete: catalog load, product-name index and keyword search

A shallow embedding of `main.go`: the fixed-width record parser
(`parseFixedWidthLine`), the loader (`loadNAPPIFile`), the index builder
(`initIndex`), the multi-keyword search (`FindMedicineEntriesByKeywords`) and the query
gate of the HTTP handler (`autocompleteHandler`).

Modelling conventions.

* A Go `string` is a sequence of bytes (`GoString`); `len` is the number of bytes, and
  `runeCount` is the number of characters.
* The functions of Go's `strings` package that decode UTF-8 (`ToLower`, `Fields`,
  `TrimSpace`) are a parameter `strings : StringsPkg` of every definition that calls them, so
  the general theorems hold whatever these functions compute.  `goStrings` is the
  instance that is exact on ASCII text; it is used to evaluate concrete inputs.
  `goStringsKelvin` extends it to text that also holds the Kelvin sign, a character
  whose lower case is shorter than the character itself.
* `strings.Contains` is byte-wise and is modelled concretely.
* A Go `map` is an association list with distinct keys; `range` over a map visits the
  entries in list order, which is one of the orders Go may choose.  The theorems on the
  search speak of the set of returned records, which does not depend on that order
  (`find_any_order`).
* A run-time panic (slice bounds, index out of range) is an explicit outcome.
* The two package-level variables form the `State`; `dataLock` has no sequential effect.
-/

namespace Nappi

/-! ## Go strings -/

/-- A Go `string`: a sequence of bytes. -/
abbrev GoString := List UInt8

/-- The bytes of an ASCII literal (for ASCII text the UTF-8 bytes are the code points). -/
def ascii (s : String) : GoString := s.toList.map (fun c => c.toNat.toUInt8)

/-- Go's slice expression `s[lo:hi]` on a string: the bytes `lo ≤ k < hi`;
out-of-range bounds are a run-time panic (`none`). -/
def slice (s : GoString) (lo hi : Nat) : Option GoString :=
  if lo ≤ hi ∧ hi ≤ s.length then some ((s.drop lo).take (hi - lo)) else none

/-- Is `sub` a prefix of `s` (byte-wise). -/
def hasPrefix : GoString → GoString → Bool
  | _, [] => true
  | [], _ :: _ => false
  | a :: s, b :: sub => a == b && hasPrefix s sub

/-- Go's `strings.Contains(s, substr)`: `substr` occurs in `s` as a contiguous run of bytes. -/
def Contains : GoString → GoString → Bool
  | [], sub => hasPrefix [] sub
  | a :: s, sub => hasPrefix (a :: s) sub || Contains s sub

/-- The functions of Go's `strings` package whose result depends on UTF-8 decoding and
on the Unicode tables. -/
structure StringsPkg where
  /-- Go `strings.ToLower`. -/
  ToLower : GoString → GoString
  /-- Go `strings.Fields`. -/
  Fields : GoString → List GoString
  /-- Go `strings.TrimSpace`. -/
  TrimSpace : GoString → GoString

/-- The ASCII white space of Go's `unicode.IsSpace`: tab, line feed, vertical tab, form feed,
carriage return and space. -/
def isSpaceByte (b : UInt8) : Bool :=
  b == 9 || b == 10 || b == 11 || b == 12 || b == 13 || b == 32

/-- Lower-case one ASCII byte: `A`..`Z` go to `a`..`z`. -/
def lowerByte (b : UInt8) : UInt8 :=
  if 65 ≤ b.toNat ∧ b.toNat ≤ 90 then (b.toNat + 32).toUInt8 else b

/-- The loop of `strings.Fields`: `cur` is the field being read. -/
def fieldsLoop : GoString → GoString → List GoString
  | [], cur => if cur.isEmpty then [] else [cur]
  | b :: rest, cur =>
    if isSpaceByte b then
      if cur.isEmpty then fieldsLoop rest [] else cur :: fieldsLoop rest []
    else fieldsLoop rest (cur ++ [b])

/-- The `strings` package on ASCII text, where it agrees with Go byte for byte.  It also
agrees with Go on valid UTF-8 text whose characters outside ASCII have no lower-case form
and are not white space (the euro sign, for one): Go leaves such characters as they are. -/
def goStrings : StringsPkg where
  ToLower := fun s => s.map lowerByte
  Fields := fun s => fieldsLoop s []
  TrimSpace := fun s => ((s.dropWhile isSpaceByte).reverse.dropWhile isSpaceByte).reverse

/-- The loop of lower-casing on text made of ASCII characters and Kelvin signs: `skip` counts
the bytes of a Kelvin sign that are still to be passed over. -/
def toLowerKelvinLoop : GoString → Nat → GoString
  | [], _ => []
  | _ :: rest, skip + 1 => toLowerKelvinLoop rest skip
  | b :: rest, 0 =>
    if b == 0xE2 && rest.take 2 == [0x84, 0xAA] then 107 :: toLowerKelvinLoop rest 2
    else lowerByte b :: toLowerKelvinLoop rest 0

/-- The `strings` package on text made of ASCII characters and the Kelvin sign U+212A (UTF-8
bytes `E2 84 AA`).  Go's `unicode.ToLower` maps the Kelvin sign to the ASCII letter `k`, so
`strings.ToLower` turns its 3 bytes into 1; the sign is not white space. -/
def goStringsKelvin : StringsPkg where
  ToLower := fun s => toLowerKelvinLoop s 0
  Fields := goStrings.Fields
  TrimSpace := goStrings.TrimSpace

/-! ## Characters -/

/-- Is the byte, if there is one, in the range `lo..hi`. -/
def byteInRange (lo hi : Nat) : Option UInt8 → Bool
  | some b => decide (lo ≤ b.toNat) && decide (b.toNat ≤ hi)
  | none => false

/-- The number of bytes of the character that starts with the byte `b` and goes on in
`rest`, as Go's `utf8` package decodes it: 2 to 4 for a well-formed multi-byte encoding,
and 1 for an ASCII byte and for a byte that starts no well-formed encoding. -/
def runeWidth (b : UInt8) (rest : GoString) : Nat :=
  let c := b.toNat
  if c < 0x80 then 1
  else if 0xC2 ≤ c ∧ c ≤ 0xDF then
    if byteInRange 0x80 0xBF rest[0]? then 2 else 1
  else if 0xE0 ≤ c ∧ c ≤ 0xEF then
    if byteInRange (if c = 0xE0 then 0xA0 else 0x80) (if c = 0xED then 0x9F else 0xBF) rest[0]?
        && byteInRange 0x80 0xBF rest[1]? then 3
    else 1
  else if 0xF0 ≤ c ∧ c ≤ 0xF4 then
    if byteInRange (if c = 0xF0 then 0x90 else 0x80) (if c = 0xF4 then 0x8F else 0xBF) rest[0]?
        && byteInRange 0x80 0xBF rest[1]? && byteInRange 0x80 0xBF rest[2]? then 4
    else 1
  else 1

/-- The loop of `runeCount`: `skip` counts the bytes of the current character that are
still to be passed over. -/
def runeCountLoop : GoString → Nat → Nat
  | [], _ => 0
  | _ :: rest, skip + 1 => runeCountLoop rest skip
  | b :: rest, 0 => 1 + runeCountLoop rest (runeWidth b rest - 1)

/-- The number of characters of a string (Go `utf8.RuneCountInString`); `len` counts its
bytes. -/
def runeCount (s : GoString) : Nat := runeCountLoop s 0

/-! ## Go maps -/

/-- A Go `map[K]V` as an association list with distinct keys. -/
abbrev GoMap (K V : Type) := List (K × V)

namespace GoMap

variable {K V : Type} [DecidableEq K]

/-- The lookup `v, ok := m[k]`. -/
def get? : GoMap K V → K → Option V
  | [], _ => none
  | (k', v) :: m, k => if k' = k then some v else get? m k

/-- The assignment `m[k] = v`. -/
def set : GoMap K V → K → V → GoMap K V
  | [], k, v => [(k, v)]
  | (k', v') :: m, k, v => if k' = k then (k', v) :: m else (k', v') :: set m k v

/-- The keys of a map. -/
def keys (m : GoMap K V) : List K := m.map Prod.fst

end GoMap

/-! ## Data model -/

/-- The record type `MedicineEntry`. -/
structure MedicineEntry where
  ProductCodeNAPPI : GoString
  ProductName : GoString
  ProductStrength : GoString
  ProductForm : GoString
deriving DecidableEq

/-- The package-level variables `medicineData` and `productNameIndex`. -/
structure State where
  medicineData : List MedicineEntry
  productNameIndex : GoMap GoString (List Nat)
deriving DecidableEq

/-- The state before `init` runs: both variables are `nil`. -/
def State.initial : State := ⟨[], []⟩

/-! ## Record parser -/

/-- Go `parseFixedWidthLine`: the four fields are the byte ranges `[11,20)`, `[20,58)`,
`[59,75)` and `[75,79)`, trimmed.  A slice expression out of range panics (`none`). -/
def parseFixedWidthLine (strings : StringsPkg) (line : GoString) : Option MedicineEntry := do
  let productCodeNAPPI := strings.TrimSpace (← slice line 11 20)
  let productName := strings.TrimSpace (← slice line 20 58)
  let productStrength := strings.TrimSpace (← slice line 59 75)
  let productForm := strings.TrimSpace (← slice line 75 79)
  return {
    ProductCodeNAPPI := productCodeNAPPI
    ProductName := productName
    ProductStrength := productStrength
    ProductForm := productForm }

/-! ## Loader -/

/-- What the scanner delivers for an opened file: the lines `scanner.Text()` returns, in
order, until `scanner.Scan()` reports false, and the value of `scanner.Err()` afterwards
(`true` for a non-nil error). -/
structure Scan where
  lines : List GoString
  scanFailed : Bool
deriving DecidableEq

/-- The ways `loadNAPPIFile` ends. -/
inductive LoadOutcome where
  /-- `return nil`, with the package variables as left by the call. -/
  | ok (st : State)
  /-- `return err` with a non-nil error, with the package variables as left by the call. -/
  | error (st : State)
  /-- A run-time panic unwinds the call, with the package variables as they were then. -/
  | panic (st : State)
deriving DecidableEq

/-- The scanning loop of `loadNAPPIFile`: parse each line and append it to `tempData`. -/
def scanLoop (strings : StringsPkg) :
    List GoString → List MedicineEntry → Option (List MedicineEntry)
  | [], tempData => some tempData
  | line :: rest, tempData =>
    match parseFixedWidthLine strings line with
    | none => none
    | some entry => scanLoop strings rest (tempData ++ [entry])

/-- Go `loadNAPPIFile`.  `file` is the result of `os.Open(filePath)`: `none` when the file
cannot be opened, otherwise what the scanner delivers. -/
def loadNAPPIFile (strings : StringsPkg) (file : Option Scan) (st : State) : LoadOutcome :=
  match file with
  | none => .error st
  | some scan =>
    match scanLoop strings scan.lines [] with
    | none => .panic st
    | some tempData =>
      if scan.scanFailed then .error st
      else .ok { st with medicineData := tempData }

/-! ## Index builder -/

/-- The loop of `initIndex`: `i` is the position of the first record of the remaining list. -/
def initIndexLoop (strings : StringsPkg) :
    Nat → List MedicineEntry → GoMap GoString (List Nat) → GoMap GoString (List Nat)
  | _, [], productNameIndex => productNameIndex
  | i, entry :: rest, productNameIndex =>
    let productName := strings.ToLower entry.ProductName
    initIndexLoop strings (i + 1) rest
      (productNameIndex.set productName (((productNameIndex.get? productName).getD []) ++ [i]))

/-- Go `initIndex`: a fresh map, filled from `medicineData`. -/
def initIndex (strings : StringsPkg) (st : State) : State :=
  { st with productNameIndex := initIndexLoop strings 0 st.medicineData [] }

/-! ## Search -/

/-- The map `entryMatches` of `FindMedicineEntriesByKeywords`. -/
abbrev EntryMatches := GoMap Nat (GoMap GoString Bool)

/-- The body of the loop over `indices`: create `entryMatches[i]` when absent, then set
`entryMatches[i][keywordLower] = true`. -/
def markEntry (keywordLower : GoString) (entryMatches : EntryMatches) (i : Nat) : EntryMatches :=
  let entryMatches :=
    match entryMatches.get? i with
    | some _ => entryMatches
    | none => entryMatches.set i []
  entryMatches.set i (((entryMatches.get? i).getD []).set keywordLower true)

/-- The body of the loop over `keywordList` for one index entry. -/
def matchKeyword (strings : StringsPkg) (productName : GoString) (indices : List Nat)
    (entryMatches : EntryMatches) (keyword : GoString) : EntryMatches :=
  if keyword.length < 3 then entryMatches
  else
    let keywordLower := strings.ToLower keyword
    if Contains productName keywordLower then
      indices.foldl (markEntry keywordLower) entryMatches
    else entryMatches

/-- The loop over `productNameIndex`. -/
def buildMatches (strings : StringsPkg) (productNameIndex : GoMap GoString (List Nat))
    (keywordList : List GoString) : EntryMatches :=
  productNameIndex.foldl
    (fun entryMatches p => keywordList.foldl (matchKeyword strings p.1 p.2) entryMatches) []

/-- The collecting loop: an entry whose matched-keyword map has as many keys as
`keywordList` has elements contributes `medicineData[entryIndex]`; an index out of range
panics (`none`). -/
def collect (medicineData : List MedicineEntry) (n : Nat) :
    EntryMatches → List MedicineEntry → Option (List MedicineEntry)
  | [], results => some results
  | (entryIndex, matchedKeywords) :: rest, results =>
    if matchedKeywords.length = n then
      match medicineData[entryIndex]? with
      | none => none
      | some entry => collect medicineData n rest (results ++ [entry])
    else collect medicineData n rest results

/-- Go `FindMedicineEntriesByKeywords`. -/
def FindMedicineEntriesByKeywords (strings : StringsPkg) (st : State) (keywords : GoString) :
    Option (List MedicineEntry) :=
  let results : List MedicineEntry := []
  let keywordList := strings.Fields keywords
  if keywordList.length = 0 then some results
  else
    let entryMatches := buildMatches strings st.productNameIndex keywordList
    collect st.medicineData keywordList.length entryMatches results

/-- The positions at which the collecting loop reads `medicineData[entryIndex]`. -/
def catalogAccesses (strings : StringsPkg) (st : State) (keywords : GoString) : List Nat :=
  let keywordList := strings.Fields keywords
  if keywordList.length = 0 then []
  else
    ((buildMatches strings st.productNameIndex keywordList).filter
      (fun p => p.2.length = keywordList.length)).map Prod.fst

/-! ## HTTP handler -/

/-- What `autocompleteHandler` does with the response writer. -/
inductive Response where
  /-- `http.Error(w, message, http.StatusBadRequest)`, then `return`. -/
  | badRequest (message : String)
  /-- The JSON object `{"results": results}` was written, with the default status 200. -/
  | json (results : List MedicineEntry)
  /-- `Encode` returned an error and `http.Error(w, ..., http.StatusInternalServerError)`
  was called. -/
  | encodeFailed
  /-- The search panicked. -/
  | panic
deriving DecidableEq

/-- Go `autocompleteHandler`.  `query` is `r.URL.Query().Get("term")` (empty when the
parameter is absent); `encodeFails` tells whether `json.NewEncoder(w).Encode` returns an
error (a failed write to the connection). -/
def autocompleteHandler (strings : StringsPkg) (st : State) (encodeFails : Bool)
    (query : GoString) : Response :=
  if query = [] then .badRequest "Search term is required"
  else if query.length < 3 then .badRequest "Search term must be at least 3 characters long"
  else
    match FindMedicineEntriesByKeywords strings st query with
    | none => .panic
    | some results => if encodeFails then .encodeFailed else .json results

/-- A catalog whose records have the given product names and empty other fields. -/
def catalogOfNames (names : List String) : List MedicineEntry :=
  names.map (fun n => ⟨[], ascii n, [], []⟩)

/-- The euro sign U+20AC: one character, the 3 bytes `E2 82 AC` in UTF-8. -/
def euro : GoString := [0xE2, 0x82, 0xAC]

/-- A record whose product name is "PRICE €5". -/
def priceEntry : MedicineEntry := ⟨[], ascii "PRICE " ++ euro ++ ascii "5", [], []⟩

/-- The state after `initIndex` on a given catalog. -/
def indexed (strings : StringsPkg) (medicineData : List MedicineEntry) : State :=
  initIndex strings ⟨medicineData, []⟩



/-! ## Specification-side definitions -/

/-- The surviving tokens of a query, in the words of the specification: the
whitespace-separated tokens of length at least 3, lower-cased. -/
def survivingTokens (strings : StringsPkg) (keywords : GoString) : List GoString :=
  ((strings.Fields keywords).filter (fun t => 3 ≤ t.length)).map strings.ToLower

/-- The brute-force filter of the specification (P2): the catalog records whose lower-cased
name contains every surviving token as a contiguous substring. -/
def bruteForceFilter (strings : StringsPkg) (medicineData : List MedicineEntry)
    (keywords : GoString) : List MedicineEntry :=
  medicineData.filter (fun r =>
    (survivingTokens strings keywords).all (fun t => Contains (strings.ToLower r.ProductName) t))

/-- The pairing predicate between index and catalog: every position stored in the index is a
position of the catalog, and its key is the lower-cased name of the record there. -/
def Paired (strings : StringsPkg) (st : State) : Prop :=
  ∀ key positions i, (key, positions) ∈ st.productNameIndex → i ∈ positions →
    ∃ entry, st.medicineData[i]? = some entry ∧ key = strings.ToLower entry.ProductName

/-- The list `f` is the byte range `[lo, hi)` of `line`. -/
def IsByteRange (line : GoString) (lo hi : Nat) (f : GoString) : Prop :=
  f.length = hi - lo ∧ ∀ k, k < hi - lo → f.get? k = line.get? (lo + k)

/-! ## Lemmas on strings -/

theorem hasPrefix_iff (s sub : GoString) : hasPrefix s sub = true ↔ sub <+: s := by
  induction s generalizing sub with
  | nil => cases sub <;> simp [hasPrefix]
  | cons a s ih =>
    cases sub with
    | nil => simp [hasPrefix]
    | cons b sub =>
      simp only [hasPrefix, Bool.and_eq_true, beq_iff_eq, ih, List.cons_prefix_cons]
      constructor
      · rintro ⟨h1, h2⟩; exact ⟨h1.symm, h2⟩
      · rintro ⟨h1, h2⟩; exact ⟨h1.symm, h2⟩

theorem contains_iff (s sub : GoString) : Contains s sub = true ↔ sub <:+: s := by
  induction s with
  | nil =>
    simp only [Contains, hasPrefix_iff]
    constructor
    · intro h; exact h.isInfix
    · intro h
      have : sub = [] := List.eq_nil_of_infix_nil h
      subst this; exact List.prefix_refl _
  | cons a s ih =>
    simp only [Contains, Bool.or_eq_true, hasPrefix_iff, ih, List.infix_cons_iff]

/-! ## Lemmas on maps -/

namespace GoMap

variable {K V : Type} [DecidableEq K]

theorem get?_set (m : GoMap K V) (k k' : K) (v : V) :
    (m.set k v).get? k' = if k = k' then some v else m.get? k' := by
  induction m with
  | nil => simp [set, get?]
  | cons p m ih =>
    obtain ⟨a, b⟩ := p
    by_cases h : a = k
    · subst h; by_cases h' : a = k' <;> simp [set, get?, h']
    · by_cases h' : k = k'
      · subst h'; simp [set, get?, h, ih]
      · by_cases h'' : a = k'
        · subst h''; simp [set, get?, h, h']
        · simp [set, get?, h, h', h'', ih]

theorem get?_eq_none_iff (m : GoMap K V) (k : K) : m.get? k = none ↔ k ∉ m.keys := by
  induction m with
  | nil => simp [get?, keys]
  | cons p m ih =>
    obtain ⟨a, b⟩ := p
    by_cases h : a = k
    · simp [get?, keys, h]
    · have h' : ¬ k = a := fun e => h e.symm
      simpa [get?, keys, h, h'] using ih

theorem mem_keys_of_get? {m : GoMap K V} {k : K} {v : V} (h : m.get? k = some v) :
    k ∈ m.keys := by
  by_contra hk
  rw [(get?_eq_none_iff m k).2 hk] at h
  cases h

theorem mem_of_get? {m : GoMap K V} {k : K} {v : V} (h : m.get? k = some v) : (k, v) ∈ m := by
  induction m with
  | nil => simp [get?] at h
  | cons p m ih =>
    obtain ⟨a, b⟩ := p
    by_cases hak : a = k
    · simp [get?, hak] at h; simp [hak, h]
    · simp [get?, hak] at h; exact List.mem_cons_of_mem _ (ih h)

theorem get?_of_mem {m : GoMap K V} (nd : m.keys.Nodup) {k : K} {v : V} (h : (k, v) ∈ m) :
    m.get? k = some v := by
  induction m with
  | nil => cases h
  | cons p m ih =>
    obtain ⟨a, b⟩ := p
    simp only [keys, List.map_cons, List.nodup_cons] at nd
    rcases List.mem_cons.1 h with h | h
    · cases h; simp [get?]
    · have hk : k ∈ keys m := List.mem_map.2 ⟨(k, v), h, rfl⟩
      have hak : a ≠ k := fun e => nd.1 (e ▸ hk)
      simp [get?, hak, ih nd.2 h]

theorem keys_set (m : GoMap K V) (k : K) (v : V) :
    (m.set k v).keys = if k ∈ m.keys then m.keys else m.keys ++ [k] := by
  induction m with
  | nil => simp [set, keys]
  | cons p m ih =>
    obtain ⟨a, b⟩ := p
    by_cases h : a = k
    · subst h; simp [set, keys]
    · have h' : ¬ k = a := fun e => h e.symm
      simp only [keys] at ih
      by_cases hk : k ∈ List.map Prod.fst m <;> simp [set, keys, h, h', hk, ih]

theorem nodup_keys_set {m : GoMap K V} (nd : m.keys.Nodup) (k : K) (v : V) :
    (m.set k v).keys.Nodup := by
  rw [keys_set]
  split
  · exact nd
  · rename_i hk
    exact List.Nodup.append nd (List.nodup_singleton k) (by simpa using hk)

theorem mem_keys_set (m : GoMap K V) (k k' : K) (v : V) :
    k' ∈ (m.set k v).keys ↔ k' ∈ m.keys ∨ k' = k := by
  rw [keys_set]
  split
  · rename_i hk
    constructor
    · intro h; exact Or.inl h
    · rintro (h | h)
      · exact h
      · exact h ▸ hk
  · simp

end GoMap

/-! ## The matching loops of the search -/

/-- The keys of the matched-keyword map of position `i`; empty when `i` has no entry. -/
def matchedKeys (em : EntryMatches) (i : Nat) : List GoString := ((em.get? i).getD []).keys

/-- Both levels of `entryMatches` have distinct keys. -/
def WellFormed (em : EntryMatches) : Prop :=
  em.keys.Nodup ∧ ∀ i m, em.get? i = some m → m.keys.Nodup

/-- The keyword `kw` marks position `j` with key `k` through the index entry
`(productName, indices)`. -/
def Marks (strings : StringsPkg) (productName : GoString) (indices : List Nat)
    (kw : GoString) (j : Nat) (k : GoString) : Prop :=
  3 ≤ kw.length ∧ Contains productName (strings.ToLower kw) = true ∧ j ∈ indices ∧
    k = strings.ToLower kw

theorem wellFormed_nil : WellFormed [] := by
  refine ⟨by simp [GoMap.keys], ?_⟩
  intro i m h
  simp [GoMap.get?] at h

theorem get?_markEntry (kl : GoString) (em : EntryMatches) (i j : Nat) :
    (markEntry kl em i).get? j =
      if i = j then some (((em.get? i).getD []).set kl true) else em.get? j := by
  unfold markEntry
  cases h : em.get? i with
  | none =>
    by_cases hij : i = j
    · subst hij; simp [GoMap.get?_set]
    · simp [GoMap.get?_set, hij]
  | some m =>
    by_cases hij : i = j
    · subst hij; simp [GoMap.get?_set, h]
    · simp [GoMap.get?_set, hij]

theorem wellFormed_markEntry (kl : GoString) {em : EntryMatches} (wf : WellFormed em) (i : Nat) :
    WellFormed (markEntry kl em i) := by
  constructor
  · unfold markEntry
    cases h : em.get? i with
    | none => exact GoMap.nodup_keys_set (GoMap.nodup_keys_set wf.1 _ _) _ _
    | some m => exact GoMap.nodup_keys_set wf.1 _ _
  · intro j m hj
    rw [get?_markEntry] at hj
    by_cases hij : i = j
    · simp only [hij, if_true, Option.some.injEq] at hj
      subst hj
      apply GoMap.nodup_keys_set
      cases h : em.get? j with
      | none => simp [GoMap.keys]
      | some m0 => exact wf.2 j m0 h
    · simp only [hij, if_false] at hj
      exact wf.2 j m hj

theorem mem_matchedKeys_markEntry (kl : GoString) (em : EntryMatches) (i j : Nat)
    (k : GoString) :
    k ∈ matchedKeys (markEntry kl em i) j ↔ k ∈ matchedKeys em j ∨ (j = i ∧ k = kl) := by
  unfold matchedKeys
  rw [get?_markEntry]
  by_cases hij : i = j
  · subst hij
    simp [GoMap.mem_keys_set]
  · have hji : ¬ j = i := fun e => hij e.symm
    simp [hij, hji]

theorem wellFormed_foldl_markEntry (kl : GoString) (indices : List Nat) {em : EntryMatches}
    (wf : WellFormed em) : WellFormed (indices.foldl (markEntry kl) em) := by
  induction indices generalizing em with
  | nil => exact wf
  | cons i rest ih => exact ih (wellFormed_markEntry kl wf i)

theorem mem_matchedKeys_foldl_markEntry (kl : GoString) (indices : List Nat)
    (em : EntryMatches) (j : Nat) (k : GoString) :
    k ∈ matchedKeys (indices.foldl (markEntry kl) em) j ↔
      k ∈ matchedKeys em j ∨ (j ∈ indices ∧ k = kl) := by
  induction indices generalizing em with
  | nil => simp
  | cons i rest ih =>
    rw [List.foldl_cons, ih, mem_matchedKeys_markEntry]
    simp only [List.mem_cons]
    tauto

theorem wellFormed_matchKeyword (strings : StringsPkg) (productName : GoString)
    (indices : List Nat) {em : EntryMatches} (wf : WellFormed em) (kw : GoString) :
    WellFormed (matchKeyword strings productName indices em kw) := by
  unfold matchKeyword
  split
  · exact wf
  · simp only []
    split
    · exact wellFormed_foldl_markEntry _ _ wf
    · exact wf

theorem mem_matchedKeys_matchKeyword (strings : StringsPkg) (productName : GoString)
    (indices : List Nat) (em : EntryMatches) (kw : GoString) (j : Nat) (k : GoString) :
    k ∈ matchedKeys (matchKeyword strings productName indices em kw) j ↔
      k ∈ matchedKeys em j ∨ Marks strings productName indices kw j k := by
  unfold matchKeyword Marks
  by_cases h3 : kw.length < 3
  · simp only [h3, if_true]
    constructor
    · intro h; exact Or.inl h
    · rintro (h | ⟨h, _⟩)
      · exact h
      · omega
  · have h3' : 3 ≤ kw.length := by omega
    simp only [h3, if_false]
    by_cases hc : Contains productName (strings.ToLower kw) = true
    · simp only [hc, if_true, mem_matchedKeys_foldl_markEntry]
      tauto
    · simp only [hc, if_false]
      tauto

theorem wellFormed_keywordLoop (strings : StringsPkg) (productName : GoString)
    (indices : List Nat) (kws : List GoString) {em : EntryMatches} (wf : WellFormed em) :
    WellFormed (kws.foldl (matchKeyword strings productName indices) em) := by
  induction kws generalizing em with
  | nil => exact wf
  | cons kw rest ih => exact ih (wellFormed_matchKeyword strings productName indices wf kw)

theorem mem_matchedKeys_keywordLoop (strings : StringsPkg) (productName : GoString)
    (indices : List Nat) (kws : List GoString) (em : EntryMatches) (j : Nat) (k : GoString) :
    k ∈ matchedKeys (kws.foldl (matchKeyword strings productName indices) em) j ↔
      k ∈ matchedKeys em j ∨ ∃ kw ∈ kws, Marks strings productName indices kw j k := by
  induction kws generalizing em with
  | nil => simp
  | cons kw rest ih =>
    rw [List.foldl_cons, ih, mem_matchedKeys_matchKeyword]
    simp only [List.mem_cons, exists_eq_or_imp, or_assoc]

theorem wellFormed_indexLoop (strings : StringsPkg) (idx : GoMap GoString (List Nat))
    (kws : List GoString) {em : EntryMatches} (wf : WellFormed em) :
    WellFormed (idx.foldl
      (fun entryMatches p => kws.foldl (matchKeyword strings p.1 p.2) entryMatches) em) := by
  induction idx generalizing em with
  | nil => exact wf
  | cons p rest ih => exact ih (wellFormed_keywordLoop strings p.1 p.2 kws wf)

theorem mem_matchedKeys_indexLoop (strings : StringsPkg) (idx : GoMap GoString (List Nat))
    (kws : List GoString) (em : EntryMatches) (j : Nat) (k : GoString) :
    k ∈ matchedKeys (idx.foldl
      (fun entryMatches p => kws.foldl (matchKeyword strings p.1 p.2) entryMatches) em) j ↔
      k ∈ matchedKeys em j ∨ ∃ p ∈ idx, ∃ kw ∈ kws, Marks strings p.1 p.2 kw j k := by
  induction idx generalizing em with
  | nil => simp
  | cons p rest ih =>
    rw [List.foldl_cons, ih, mem_matchedKeys_keywordLoop]
    simp only [List.mem_cons, exists_eq_or_imp, or_assoc]

theorem wellFormed_buildMatches (strings : StringsPkg) (idx : GoMap GoString (List Nat))
    (kws : List GoString) : WellFormed (buildMatches strings idx kws) :=
  wellFormed_indexLoop strings idx kws wellFormed_nil

theorem mem_matchedKeys_buildMatches (strings : StringsPkg) (idx : GoMap GoString (List Nat))
    (kws : List GoString) (j : Nat) (k : GoString) :
    k ∈ matchedKeys (buildMatches strings idx kws) j ↔
      ∃ p ∈ idx, ∃ kw ∈ kws, Marks strings p.1 p.2 kw j k := by
  unfold buildMatches
  rw [mem_matchedKeys_indexLoop]
  simp [matchedKeys, GoMap.get?, GoMap.keys]

/-! ## The index builder -/

/-- Position `j` is listed under the key `name`. -/
def Listed (idx : GoMap GoString (List Nat)) (name : GoString) (j : Nat) : Prop :=
  ∃ l, idx.get? name = some l ∧ j ∈ l

theorem listed_nil (name : GoString) (j : Nat) : ¬ Listed [] name j := by
  rintro ⟨l, h, _⟩
  simp [GoMap.get?] at h

theorem listed_set_append (idx : GoMap GoString (List Nat)) (pn name : GoString) (i j : Nat) :
    Listed (idx.set pn (((idx.get? pn).getD []) ++ [i])) name j ↔
      Listed idx name j ∨ (name = pn ∧ j = i) := by
  unfold Listed
  simp only [GoMap.get?_set]
  by_cases h : pn = name
  · subst h
    simp only [if_true, Option.some.injEq, exists_eq_left', List.mem_append,
      List.mem_singleton, true_and]
    cases hg : idx.get? pn with
    | none => simp
    | some l => simp
  · have h' : ¬ name = pn := fun e => h e.symm
    simp [h, h']

theorem nodup_keys_initIndexLoop (strings : StringsPkg) (i : Nat) (data : List MedicineEntry)
    {idx : GoMap GoString (List Nat)} (nd : idx.keys.Nodup) :
    (initIndexLoop strings i data idx).keys.Nodup := by
  induction data generalizing i idx with
  | nil => exact nd
  | cons e rest ih => exact ih (i + 1) (GoMap.nodup_keys_set nd _ _)

theorem listed_initIndexLoop (strings : StringsPkg) (i : Nat) (data : List MedicineEntry)
    (idx : GoMap GoString (List Nat)) (name : GoString) (j : Nat) :
    Listed (initIndexLoop strings i data idx) name j ↔
      Listed idx name j ∨
        ∃ k e, data[k]? = some e ∧ j = i + k ∧ name = strings.ToLower e.ProductName := by
  induction data generalizing i idx with
  | nil => simp [initIndexLoop]
  | cons e rest ih =>
    simp only [initIndexLoop]
    rw [ih, listed_set_append, or_assoc]
    apply or_congr_right
    constructor
    · rintro (⟨h1, h2⟩ | ⟨k, e', hk, hj, hn⟩)
      · exact ⟨0, e, by simp, by omega, h1⟩
      · exact ⟨k + 1, e', by simpa using hk, by omega, hn⟩
    · rintro ⟨k, e', hk, hj, hn⟩
      cases k with
      | zero =>
        simp only [List.getElem?_cons_zero, Option.some.injEq] at hk
        subst hk
        exact Or.inl ⟨hn, by omega⟩
      | succ k =>
        simp only [List.getElem?_cons_succ] at hk
        exact Or.inr ⟨k, e', hk, by omega, hn⟩

theorem nodup_keys_initIndex (strings : StringsPkg) (st : State) :
    (initIndex strings st).productNameIndex.keys.Nodup :=
  nodup_keys_initIndexLoop strings 0 st.medicineData (by simp [GoMap.keys])

theorem listed_initIndex (strings : StringsPkg) (st : State) (name : GoString) (j : Nat) :
    Listed (initIndex strings st).productNameIndex name j ↔
      ∃ e, st.medicineData[j]? = some e ∧ name = strings.ToLower e.ProductName := by
  unfold initIndex
  simp only [listed_initIndexLoop, zero_add]
  constructor
  · rintro (h | ⟨k, e, hk, hj, hn⟩)
    · exact absurd h (listed_nil _ _)
    · subst hj; exact ⟨e, hk, hn⟩
  · rintro ⟨e, hk, hn⟩
    exact Or.inr ⟨j, e, hk, rfl, hn⟩

/-- The index built by `initIndex`, read as a list of entries: `j` occurs in the position
list of an entry with key `name` exactly when `j` is a catalog position whose record has
that lower-cased name. -/
theorem mem_initIndex (strings : StringsPkg) (st : State) (name : GoString) (j : Nat) :
    (∃ p ∈ (initIndex strings st).productNameIndex, p.1 = name ∧ j ∈ p.2) ↔
      ∃ e, st.medicineData[j]? = some e ∧ name = strings.ToLower e.ProductName := by
  rw [← listed_initIndex]
  constructor
  · rintro ⟨⟨key, l⟩, hp, hkey, hj⟩
    simp only at hkey hj
    subst hkey
    exact ⟨l, GoMap.get?_of_mem (nodup_keys_initIndex strings st) hp, hj⟩
  · rintro ⟨l, hl, hj⟩
    exact ⟨(name, l), GoMap.mem_of_get? hl, rfl, hj⟩

@[simp] theorem medicineData_initIndex (strings : StringsPkg) (st : State) :
    (initIndex strings st).medicineData = st.medicineData := rfl

/-! ## The collecting loop -/

theorem collect_eq_some (data : List MedicineEntry) (n : Nat) (em : EntryMatches)
    (acc : List MedicineEntry) (h : ∀ p ∈ em, p.2.length = n → p.1 < data.length) :
    collect data n em acc =
      some (acc ++ em.filterMap (fun p => if p.2.length = n then data[p.1]? else none)) := by
  induction em generalizing acc with
  | nil => simp [collect]
  | cons p rest ih =>
    obtain ⟨i, m⟩ := p
    have hrest : ∀ q ∈ rest, q.2.length = n → q.1 < data.length :=
      fun q hq => h q (List.mem_cons_of_mem _ hq)
    by_cases hm : m.length = n
    · have hi : i < data.length := h (i, m) (List.mem_cons_self _ _) hm
      have hget : data[i]? = some data[i] := List.getElem?_eq_getElem hi
      simp only [collect, hm, if_true, hget, List.filterMap_cons]
      rw [ih _ hrest]
      simp
    · simp only [collect, hm, if_false, List.filterMap_cons]
      rw [ih _ hrest]

theorem collect_isSome_iff (data : List MedicineEntry) (n : Nat) (em : EntryMatches)
    (acc : List MedicineEntry) :
    (collect data n em acc).isSome ↔ ∀ p ∈ em, p.2.length = n → p.1 < data.length := by
  constructor
  · intro hs
    induction em generalizing acc with
    | nil => intro p hp; cases hp
    | cons q rest ih =>
      obtain ⟨i, m⟩ := q
      intro p hp hlen
      by_cases hm : m.length = n
      · cases hget : data[i]? with
        | none => simp [collect, hm, hget] at hs
        | some e =>
          simp only [collect, hm, if_true, hget] at hs
          rcases List.mem_cons.1 hp with hp | hp
          · subst hp
            exact (List.getElem?_eq_some_iff.1 hget).1
          · exact ih _ hs p hp hlen
      · simp only [collect, hm, if_false] at hs
        rcases List.mem_cons.1 hp with hp | hp
        · subst hp; exact absurd hlen hm
        · exact ih _ hs p hp hlen
  · intro h
    rw [collect_eq_some data n em acc h]
    rfl

/-! ## Counting matched keywords -/

/-- A duplicate-free list whose members are the images under `f` of the elements of `kws`
that satisfy `P` is as long as `kws` exactly when every element satisfies `P` and `f` is
injective on `kws`. -/
theorem length_eq_iff_all_nodup {α β : Type} [DecidableEq β] (f : α → β) (P : α → Bool)
    (kws : List α) (L : List β) (nd : L.Nodup)
    (hL : ∀ k, k ∈ L ↔ ∃ kw ∈ kws, P kw = true ∧ k = f kw) :
    L.length = kws.length ↔ (∀ kw ∈ kws, P kw = true) ∧ (kws.map f).Nodup := by
  have hperm : L.Perm ((kws.filter P).map f).dedup := by
    rw [List.perm_ext_iff_of_nodup nd (List.nodup_dedup _)]
    intro k
    rw [hL, List.mem_dedup, List.mem_map]
    constructor
    · rintro ⟨kw, hkw, hP, rfl⟩
      exact ⟨kw, List.mem_filter.2 ⟨hkw, hP⟩, rfl⟩
    · rintro ⟨kw, hkw, rfl⟩
      exact ⟨kw, (List.mem_filter.1 hkw).1, (List.mem_filter.1 hkw).2, rfl⟩
  rw [hperm.length_eq]
  have h1 : ((kws.filter P).map f).dedup.length ≤ ((kws.filter P).map f).length :=
    (List.dedup_sublist _).length_le
  have h2 : (kws.filter P).length ≤ kws.length := (List.filter_sublist _).length_le
  constructor
  · intro h
    rw [List.length_map] at h1
    have hf : kws.filter P = kws :=
      (List.filter_sublist _).eq_of_length (by omega)
    refine ⟨List.filter_eq_self.1 hf, ?_⟩
    rw [hf] at h
    have hd : (kws.map f).dedup = kws.map f :=
      (List.dedup_sublist _).eq_of_length (by rw [h, List.length_map])
    rw [← hd]
    exact List.nodup_dedup _
  · rintro ⟨hall, hnd⟩
    rw [List.filter_eq_self.2 hall, hnd.dedup, List.length_map]

theorem matchedKeys_nodup {em : EntryMatches} (wf : WellFormed em) (j : Nat) :
    (matchedKeys em j).Nodup := by
  unfold matchedKeys
  cases h : em.get? j with
  | none => simp [GoMap.keys]
  | some m => exact wf.2 j m h

theorem length_matchedKeys {em : EntryMatches} {j : Nat} {m : GoMap GoString Bool}
    (h : em.get? j = some m) : (matchedKeys em j).length = m.length := by
  simp [matchedKeys, h, GoMap.keys]

/-! ## The search on an index of the catalog -/

/-- The map `idx` is an index of the catalog `data`: a position `j` occurs in the position
list of an entry with key `name` exactly when `j` is a catalog position whose record has
that lower-cased name.  The order of the entries plays no part. -/
def IndexOf (strings : StringsPkg) (data : List MedicineEntry)
    (idx : GoMap GoString (List Nat)) : Prop :=
  ∀ name j, (∃ p ∈ idx, p.1 = name ∧ j ∈ p.2) ↔
    ∃ e, data[j]? = some e ∧ name = strings.ToLower e.ProductName

theorem indexOf_initIndex (strings : StringsPkg) (st : State) :
    IndexOf strings st.medicineData (initIndex strings st).productNameIndex :=
  fun name j => mem_initIndex strings st name j

theorem IndexOf.perm {strings : StringsPkg} {data : List MedicineEntry}
    {idx idx' : GoMap GoString (List Nat)} (h : IndexOf strings data idx)
    (hp : idx'.Perm idx) : IndexOf strings data idx' := by
  intro name j
  rw [← h name j]
  constructor
  · rintro ⟨p, hmem, hrest⟩; exact ⟨p, hp.mem_iff.1 hmem, hrest⟩
  · rintro ⟨p, hmem, hrest⟩; exact ⟨p, hp.mem_iff.2 hmem, hrest⟩

/-- The test a keyword has to pass against a record: at least 3 bytes long and, lower-cased,
contained in the lower-cased name. -/
def keywordHits (strings : StringsPkg) (entry : MedicineEntry) (kw : GoString) : Bool :=
  decide (3 ≤ kw.length) &&
    Contains (strings.ToLower entry.ProductName) (strings.ToLower kw)

theorem mem_matchedKeys_search {strings : StringsPkg} {data : List MedicineEntry}
    {idx : GoMap GoString (List Nat)} (hidx : IndexOf strings data idx) (kws : List GoString)
    (j : Nat) (e : MedicineEntry) (he : data[j]? = some e) (k : GoString) :
    k ∈ matchedKeys (buildMatches strings idx kws) j ↔
      ∃ kw ∈ kws, keywordHits strings e kw = true ∧ k = strings.ToLower kw := by
  rw [mem_matchedKeys_buildMatches]
  constructor
  · rintro ⟨p, hp, kw, hkw, h3, hc, hj, hk⟩
    obtain ⟨e', he', hn⟩ := (hidx p.1 j).1 ⟨p, hp, rfl, hj⟩
    rw [he] at he'
    cases he'
    refine ⟨kw, hkw, ?_, hk⟩
    simp only [keywordHits, Bool.and_eq_true, decide_eq_true_eq]
    exact ⟨h3, hn ▸ hc⟩
  · rintro ⟨kw, hkw, hit, hk⟩
    simp only [keywordHits, Bool.and_eq_true, decide_eq_true_eq] at hit
    obtain ⟨p, hp, hname, hj⟩ := (hidx (strings.ToLower e.ProductName) j).2 ⟨e, he, rfl⟩
    exact ⟨p, hp, kw, hkw, hit.1, hname ▸ hit.2, hj, hk⟩

theorem inRange_of_mem_matchedKeys {strings : StringsPkg} {data : List MedicineEntry}
    {idx : GoMap GoString (List Nat)} (hidx : IndexOf strings data idx) (kws : List GoString)
    (j : Nat) (k : GoString) (h : k ∈ matchedKeys (buildMatches strings idx kws) j) :
    j < data.length := by
  rw [mem_matchedKeys_buildMatches] at h
  obtain ⟨p, hp, kw, _, _, _, hj, _⟩ := h
  obtain ⟨e, he, _⟩ := (hidx p.1 j).1 ⟨p, hp, rfl, hj⟩
  exact (List.getElem?_eq_some_iff.1 he).1

/-- Every entry of `entryMatches` that passes the length test of the collecting loop sits at
a catalog position, when the map searched is an index of the catalog. -/
theorem accesses_inRange {strings : StringsPkg} {data : List MedicineEntry}
    {idx : GoMap GoString (List Nat)} (hidx : IndexOf strings data idx) (kws : List GoString)
    (hk : kws.length ≠ 0) :
    ∀ p ∈ buildMatches strings idx kws, p.2.length = kws.length → p.1 < data.length := by
  rintro ⟨j, m⟩ hp hlen
  have wf := wellFormed_buildMatches strings idx kws
  have hget := GoMap.get?_of_mem wf.1 hp
  have hlen' := length_matchedKeys hget
  simp only at hlen
  have hpos : 0 < (matchedKeys (buildMatches strings idx kws) j).length := by omega
  obtain ⟨k, hkmem⟩ := List.exists_mem_of_length_pos hpos
  exact inRange_of_mem_matchedKeys hidx kws j k hkmem

/-- The position `j`, holding record `e`, passes the length test of the collecting loop
exactly when every keyword hits `e` and the lower-cased keywords are pairwise distinct. -/
theorem qualifies_iff {strings : StringsPkg} {data : List MedicineEntry}
    {idx : GoMap GoString (List Nat)} (hidx : IndexOf strings data idx) (kws : List GoString)
    (j : Nat) (e : MedicineEntry) (he : data[j]? = some e) :
    (matchedKeys (buildMatches strings idx kws) j).length = kws.length ↔
      (∀ kw ∈ kws, keywordHits strings e kw = true) ∧ (kws.map strings.ToLower).Nodup :=
  length_eq_iff_all_nodup strings.ToLower (keywordHits strings e) kws _
    (matchedKeys_nodup (wellFormed_buildMatches strings _ kws) j)
    (mem_matchedKeys_search hidx kws j e he)

/-- The result of the search in a state whose map is an index of its catalog: the search
returns, and a record is returned exactly when the query has a token, the record is in the
catalog, every token hits it, and the lower-cased tokens are pairwise distinct. -/
theorem find_indexOf (strings : StringsPkg) (st : State)
    (hidx : IndexOf strings st.medicineData st.productNameIndex) (keywords : GoString) :
    ∃ r, FindMedicineEntriesByKeywords strings st keywords = some r ∧
      ∀ e, e ∈ r ↔
        strings.Fields keywords ≠ [] ∧ e ∈ st.medicineData ∧
          (∀ kw ∈ strings.Fields keywords, keywordHits strings e kw = true) ∧
          ((strings.Fields keywords).map strings.ToLower).Nodup := by
  unfold FindMedicineEntriesByKeywords
  simp only []
  by_cases hk : (strings.Fields keywords).length = 0
  · refine ⟨[], by simp [hk], ?_⟩
    intro e
    have : strings.Fields keywords = [] := List.length_eq_zero.1 hk
    simp [this]
  · have hne : strings.Fields keywords ≠ [] := fun h => hk (by simp [h])
    have hin := accesses_inRange hidx (strings.Fields keywords) hk
    have wf := wellFormed_buildMatches strings st.productNameIndex (strings.Fields keywords)
    simp only [hk, if_false]
    rw [collect_eq_some _ _ _ _ hin]
    refine ⟨_, rfl, ?_⟩
    intro e
    simp only [List.nil_append, List.mem_filterMap]
    constructor
    · rintro ⟨⟨j, m⟩, hp, hsome⟩
      by_cases hm : m.length = (strings.Fields keywords).length
      · simp only [hm, if_true] at hsome
        have hget := GoMap.get?_of_mem wf.1 hp
        have hq := (qualifies_iff hidx _ j e hsome).1 ((length_matchedKeys hget).trans hm)
        exact ⟨hne, List.mem_iff_getElem?.2 ⟨j, hsome⟩, hq.1, hq.2⟩
      · simp [hm] at hsome
    · rintro ⟨_, hmem, hall, hnd⟩
      obtain ⟨j, hj⟩ := List.mem_iff_getElem?.1 hmem
      have hq := (qualifies_iff hidx _ j e hj).2 ⟨hall, hnd⟩
      cases hget : (buildMatches strings st.productNameIndex
          (strings.Fields keywords)).get? j with
      | none =>
        simp [matchedKeys, hget, GoMap.keys] at hq
        exact absurd hq.symm hk
      | some m =>
        have hm : m.length = (strings.Fields keywords).length :=
          (length_matchedKeys hget).symm.trans hq
        exact ⟨(j, m), GoMap.mem_of_get? hget, by simp [hm, hj]⟩

/-- The search on the index built by `initIndex`. -/
theorem find_initIndex (strings : StringsPkg) (st : State) (keywords : GoString) :
    ∃ r, FindMedicineEntriesByKeywords strings (initIndex strings st) keywords = some r ∧
      ∀ e, e ∈ r ↔
        strings.Fields keywords ≠ [] ∧ e ∈ st.medicineData ∧
          (∀ kw ∈ strings.Fields keywords, keywordHits strings e kw = true) ∧
          ((strings.Fields keywords).map strings.ToLower).Nodup :=
  find_indexOf strings (initIndex strings st) (indexOf_initIndex strings st) keywords

/-- The order in which `range` visits the entries of `productNameIndex` does not change which
records are returned: the characterisation of `find_initIndex` holds for every reordering of
the index built by `initIndex`. -/
theorem find_any_order (strings : StringsPkg) (st : State)
    (idx : GoMap GoString (List Nat)) (hp : idx.Perm (initIndex strings st).productNameIndex)
    (keywords : GoString) :
    ∃ r, FindMedicineEntriesByKeywords strings ⟨st.medicineData, idx⟩ keywords = some r ∧
      ∀ e, e ∈ r ↔
        strings.Fields keywords ≠ [] ∧ e ∈ st.medicineData ∧
          (∀ kw ∈ strings.Fields keywords, keywordHits strings e kw = true) ∧
          ((strings.Fields keywords).map strings.ToLower).Nodup :=
  find_indexOf strings ⟨st.medicineData, idx⟩ ((indexOf_initIndex strings st).perm hp) keywords

/-! ## Short tokens and empty queries -/

theorem matchKeyword_short (strings : StringsPkg) (productName : GoString) (indices : List Nat)
    (em : EntryMatches) (t : GoString) (h : t.length < 3) :
    matchKeyword strings productName indices em t = em := by
  simp [matchKeyword, h]

theorem keywordLoop_short (strings : StringsPkg) (productName : GoString) (indices : List Nat)
    (kws : List GoString) (h : ∀ t ∈ kws, t.length < 3) (em : EntryMatches) :
    kws.foldl (matchKeyword strings productName indices) em = em := by
  induction kws generalizing em with
  | nil => rfl
  | cons t rest ih =>
    rw [List.foldl_cons, matchKeyword_short strings productName indices em t
      (h t (List.mem_cons_self _ _))]
    exact ih (fun t ht => h t (List.mem_cons_of_mem _ ht)) em

theorem buildMatches_short (strings : StringsPkg) (idx : GoMap GoString (List Nat))
    (kws : List GoString) (h : ∀ t ∈ kws, t.length < 3) : buildMatches strings idx kws = [] := by
  unfold buildMatches
  induction idx with
  | nil => rfl
  | cons p rest ih => rw [List.foldl_cons, keywordLoop_short strings p.1 p.2 kws h]; exact ih

theorem fieldsLoop_spaces (q : GoString) (h : ∀ b ∈ q, isSpaceByte b = true) :
    fieldsLoop q [] = [] := by
  induction q with
  | nil => rfl
  | cons b rest ih =>
    have hb := h b (List.mem_cons_self _ _)
    simp only [fieldsLoop, hb, if_true, List.isEmpty_nil]
    exact ih (fun c hc => h c (List.mem_cons_of_mem _ hc))

/-- On ASCII text, a query of white space only (the empty query included) has no token. -/
theorem fields_spaces (q : GoString) (h : ∀ b ∈ q, isSpaceByte b = true) :
    goStrings.Fields q = [] :=
  fieldsLoop_spaces q h

/-! ## Claims on the search and the index -/

/-- C1, as stated, fails in three ways on the catalog with the single name
"ASPIRIN 300MG TABLET": the empty query returns nothing although every record passes the
brute-force filter; "aspirin ab" returns nothing although the only surviving token "aspirin"
is a substring of the name; and "asp ASP" returns nothing although "asp" is. -/
theorem and_semantics_counterexample :
    (FindMedicineEntriesByKeywords goStrings
        (initIndex goStrings ⟨catalogOfNames ["ASPIRIN 300MG TABLET"], []⟩) (ascii "") = some [] ∧
      bruteForceFilter goStrings (catalogOfNames ["ASPIRIN 300MG TABLET"]) (ascii "") =
        catalogOfNames ["ASPIRIN 300MG TABLET"]) ∧
    (FindMedicineEntriesByKeywords goStrings
        (initIndex goStrings ⟨catalogOfNames ["ASPIRIN 300MG TABLET"], []⟩)
        (ascii "aspirin ab") = some [] ∧
      bruteForceFilter goStrings (catalogOfNames ["ASPIRIN 300MG TABLET"]) (ascii "aspirin ab") =
        catalogOfNames ["ASPIRIN 300MG TABLET"]) ∧
    (FindMedicineEntriesByKeywords goStrings
        (initIndex goStrings ⟨catalogOfNames ["ASPIRIN 300MG TABLET"], []⟩)
        (ascii "asp ASP") = some [] ∧
      bruteForceFilter goStrings (catalogOfNames ["ASPIRIN 300MG TABLET"]) (ascii "asp ASP") =
        catalogOfNames ["ASPIRIN 300MG TABLET"]) := by
  decide

/-- C1 (amended): for every catalog, with the index built from it by `initIndex`, and every
query that has at least one token, all of whose tokens have at least 3 bytes and are pairwise
distinct after lower-casing, the search returns, and a record is in the result iff it is a
catalog record whose lower-cased `ProductName` contains every surviving token as a contiguous
substring; the returned set is that of the brute-force filter. -/
theorem and_semantics (strings : StringsPkg) (st : State) (keywords : GoString)
    (hne : strings.Fields keywords ≠ [])
    (hlen : ∀ kw ∈ strings.Fields keywords, 3 ≤ kw.length)
    (hnd : ((strings.Fields keywords).map strings.ToLower).Nodup) :
    ∃ r, FindMedicineEntriesByKeywords strings (initIndex strings st) keywords = some r ∧
      (∀ e, e ∈ r ↔ e ∈ st.medicineData ∧
        ∀ t ∈ survivingTokens strings keywords, t <:+: strings.ToLower e.ProductName) ∧
      (∀ e, e ∈ r ↔ e ∈ bruteForceFilter strings st.medicineData keywords) := by
  obtain ⟨r, hr, hmem⟩ := find_initIndex strings st keywords
  have hsurv : survivingTokens strings keywords =
      (strings.Fields keywords).map strings.ToLower := by
    unfold survivingTokens
    rw [List.filter_eq_self.2 (fun kw hkw => by simpa using hlen kw hkw)]
  have key : ∀ e, e ∈ r ↔ e ∈ st.medicineData ∧
      ∀ t ∈ survivingTokens strings keywords, t <:+: strings.ToLower e.ProductName := by
    intro e
    rw [hmem, hsurv]
    constructor
    · rintro ⟨_, hin, hall, _⟩
      refine ⟨hin, ?_⟩
      intro t ht
      obtain ⟨kw, hkw, rfl⟩ := List.mem_map.1 ht
      have := hall kw hkw
      simp only [keywordHits, Bool.and_eq_true, decide_eq_true_eq] at this
      exact (contains_iff _ _).1 this.2
    · rintro ⟨hin, hall⟩
      refine ⟨hne, hin, ?_, hnd⟩
      intro kw hkw
      simp only [keywordHits, Bool.and_eq_true, decide_eq_true_eq]
      exact ⟨hlen kw hkw, (contains_iff _ _).2 (hall _ (List.mem_map.2 ⟨kw, hkw, rfl⟩))⟩
  refine ⟨r, hr, key, ?_⟩
  intro e
  rw [key]
  unfold bruteForceFilter
  simp only [List.mem_filter, List.all_eq_true, contains_iff]

/-- Scenario D instantiates the amended C1: two records, query "paracetamol syrup". -/
theorem and_semantics_witness :
    ∃ r, FindMedicineEntriesByKeywords goStrings
        (initIndex goStrings ⟨catalogOfNames ["PARACETAMOL 500MG", "PARACETAMOL SYRUP"], []⟩)
        (ascii "paracetamol syrup") = some r ∧
      (∀ e, e ∈ r ↔ e ∈ catalogOfNames ["PARACETAMOL 500MG", "PARACETAMOL SYRUP"] ∧
        ∀ t ∈ survivingTokens goStrings (ascii "paracetamol syrup"),
          t <:+: goStrings.ToLower e.ProductName) ∧
      (∀ e, e ∈ r ↔ e ∈ bruteForceFilter goStrings
        (catalogOfNames ["PARACETAMOL 500MG", "PARACETAMOL SYRUP"]) (ascii "paracetamol syrup")) :=
  and_semantics goStrings ⟨catalogOfNames ["PARACETAMOL 500MG", "PARACETAMOL SYRUP"], []⟩
    (ascii "paracetamol syrup") (by decide) (by decide) (by decide)

/-- C2 fails on the code: with the catalog of the single name "ASPIRIN 300MG TABLET", the
query "aspirin ab" returns no record, while "aspirin", the same query without its short
token, returns the record.  The length test compares with the number of all tokens. -/
theorem short_token_changes_result :
    FindMedicineEntriesByKeywords goStrings
        (initIndex goStrings ⟨catalogOfNames ["ASPIRIN 300MG TABLET"], []⟩)
        (ascii "aspirin ab") = some [] ∧
    FindMedicineEntriesByKeywords goStrings
        (initIndex goStrings ⟨catalogOfNames ["ASPIRIN 300MG TABLET"], []⟩)
        (ascii "aspirin") = some (catalogOfNames ["ASPIRIN 300MG TABLET"]) ∧
    (goStrings.Fields (ascii "aspirin ab")).filter (fun t => 3 ≤ t.length) =
      goStrings.Fields (ascii "aspirin") := by
  decide

/-- C3, as stated, fails when length is counted in characters: the query "€" has one token
of one character, which has 3 bytes and is not skipped; on the catalog of "PRICE €5" it
returns the record. -/
theorem short_token_exclusion_counterexample :
    goStrings.Fields euro = [euro] ∧ runeCount euro = 1 ∧ euro.length = 3 ∧
    FindMedicineEntriesByKeywords goStrings (initIndex goStrings ⟨[priceEntry], []⟩) euro =
      some [priceEntry] := by
  decide

/-- C3 (amended): for every catalog and index and every query all of whose tokens are
shorter than 3 bytes, the search returns the empty result and marks no position as matched;
and in every query, for a token shorter than 3 bytes the loop body leaves `entryMatches` as
it is, whatever the index entry. -/
theorem short_token_exclusion (strings : StringsPkg) (st : State) (keywords : GoString)
    (h : ∀ t ∈ strings.Fields keywords, t.length < 3) :
    FindMedicineEntriesByKeywords strings st keywords = some [] ∧
      buildMatches strings st.productNameIndex (strings.Fields keywords) = [] ∧
      ∀ (t productName : GoString) (indices : List Nat) (entryMatches : EntryMatches),
        t.length < 3 →
        matchKeyword strings productName indices entryMatches t = entryMatches := by
  refine ⟨?_, buildMatches_short strings _ _ h, ?_⟩
  · unfold FindMedicineEntriesByKeywords
    simp only []
    split
    · rfl
    · rw [buildMatches_short strings _ _ h]; rfl
  · intro t productName indices entryMatches ht
    exact matchKeyword_short strings productName indices entryMatches t ht

/-- Scenario C instantiates the amended C3: the query "as" on the catalog of
"ASPIRIN 300MG TABLET". -/
theorem short_token_exclusion_witness :
    FindMedicineEntriesByKeywords goStrings
        (initIndex goStrings ⟨catalogOfNames ["ASPIRIN 300MG TABLET"], []⟩) (ascii "as") =
        some [] ∧
      buildMatches goStrings
        (initIndex goStrings ⟨catalogOfNames ["ASPIRIN 300MG TABLET"], []⟩).productNameIndex
        (goStrings.Fields (ascii "as")) = [] ∧
      ∀ (t productName : GoString) (indices : List Nat) (entryMatches : EntryMatches),
        t.length < 3 →
        matchKeyword goStrings productName indices entryMatches t = entryMatches :=
  short_token_exclusion goStrings
    (initIndex goStrings ⟨catalogOfNames ["ASPIRIN 300MG TABLET"], []⟩) (ascii "as")
    (by decide)

/-- C4: for every catalog and index state and every query that tokenizes to the empty list,
the search returns the empty result; it does not panic. -/
theorem empty_query (strings : StringsPkg) (st : State) (keywords : GoString)
    (h : strings.Fields keywords = []) :
    FindMedicineEntriesByKeywords strings st keywords = some [] := by
  simp [FindMedicineEntriesByKeywords, h]

/-- A query of blanks and a tab on a non-empty catalog instantiates C4. -/
theorem empty_query_witness :
    goStrings.Fields (ascii "  \t ") = [] ∧
      FindMedicineEntriesByKeywords goStrings
        (initIndex goStrings ⟨catalogOfNames ["ASPIRIN 300MG TABLET"], []⟩) (ascii "  \t ") =
        some [] :=
  ⟨by decide, empty_query goStrings _ (ascii "  \t ") (by decide)⟩

/-- C5: for every catalog and every position `i` in it, after `initIndex` the lower-cased
`ProductName` of record `i` is a key of `productNameIndex` and `i` is in that key's
position list. -/
theorem index_complete (strings : StringsPkg) (st : State) (i : Nat)
    (hi : i < st.medicineData.length) :
    strings.ToLower (st.medicineData[i]).ProductName ∈
        (initIndex strings st).productNameIndex.keys ∧
      ∃ positions, (initIndex strings st).productNameIndex.get?
          (strings.ToLower (st.medicineData[i]).ProductName) = some positions ∧
        i ∈ positions := by
  obtain ⟨l, hl, hmem⟩ := (listed_initIndex strings st
    (strings.ToLower (st.medicineData[i]).ProductName) i).2
    ⟨st.medicineData[i], List.getElem?_eq_getElem hi, rfl⟩
  exact ⟨GoMap.mem_keys_of_get? hl, l, hl, hmem⟩

/-- Position 1 of a two-record catalog instantiates C5. -/
theorem index_complete_witness :
    goStrings.ToLower (ascii "PARACETAMOL SYRUP") ∈
        (initIndex goStrings
          ⟨catalogOfNames ["PARACETAMOL 500MG", "PARACETAMOL SYRUP"], []⟩).productNameIndex.keys ∧
      ∃ positions, (initIndex goStrings
          ⟨catalogOfNames ["PARACETAMOL 500MG", "PARACETAMOL SYRUP"], []⟩).productNameIndex.get?
          (goStrings.ToLower (ascii "PARACETAMOL SYRUP")) = some positions ∧
        1 ∈ positions :=
  index_complete goStrings ⟨catalogOfNames ["PARACETAMOL 500MG", "PARACETAMOL SYRUP"], []⟩ 1
    (by decide)

/-! ## The record parser and the loader -/

/-- A well-formed line of 80 bytes: 11 bytes of filler, the code, the name padded to 38
bytes, one byte of filler, the strength padded to 16 bytes, the form padded to 4 bytes and
one trailing byte. -/
def sampleLine : GoString :=
  ascii "00000000000" ++ ascii "703712001" ++ ascii "ASPIRIN 300MG TABLET" ++
    List.replicate 18 32 ++ ascii "#" ++ ascii "300MG" ++ List.replicate 11 32 ++
    ascii "TAB " ++ ascii "#"

/-- The record held by `sampleLine`. -/
def sampleEntry : MedicineEntry :=
  ⟨ascii "703712001", ascii "ASPIRIN 300MG TABLET", ascii "300MG", ascii "TAB"⟩

theorem isByteRange_slice (s : GoString) (lo hi : Nat) (h1 : lo ≤ hi) (h2 : hi ≤ s.length) :
    IsByteRange s lo hi ((s.drop lo).take (hi - lo)) := by
  constructor
  · rw [List.length_take, List.length_drop]; omega
  · intro k hk
    rw [List.get?_eq_getElem?, List.get?_eq_getElem?, List.getElem?_take_of_lt hk,
      List.getElem?_drop]

theorem parse_eq_some (strings : StringsPkg) (line : GoString) (h : 79 ≤ line.length) :
    parseFixedWidthLine strings line = some
      ⟨strings.TrimSpace ((line.drop 11).take 9), strings.TrimSpace ((line.drop 20).take 38),
        strings.TrimSpace ((line.drop 59).take 16), strings.TrimSpace ((line.drop 75).take 4)⟩ := by
  have h1 : slice line 11 20 = some ((line.drop 11).take 9) := by
    simp only [slice]; rw [if_pos ⟨by omega, by omega⟩]
  have h2 : slice line 20 58 = some ((line.drop 20).take 38) := by
    simp only [slice]; rw [if_pos ⟨by omega, by omega⟩]
  have h3 : slice line 59 75 = some ((line.drop 59).take 16) := by
    simp only [slice]; rw [if_pos ⟨by omega, by omega⟩]
  have h4 : slice line 75 79 = some ((line.drop 75).take 4) := by
    simp only [slice]; rw [if_pos ⟨by omega, by omega⟩]
  simp [parseFixedWidthLine, h1, h2, h3, h4]

theorem parse_eq_none (strings : StringsPkg) (line : GoString) (h : line.length < 79) :
    parseFixedWidthLine strings line = none := by
  have h4 : slice line 75 79 = none := by
    simp only [slice]; rw [if_neg (by omega)]
  unfold parseFixedWidthLine
  cases slice line 11 20 <;> cases slice line 20 58 <;> cases slice line 59 75 <;> simp [h4]

theorem scanLoop_eq_none (strings : StringsPkg) (lines : List GoString)
    (h : ∃ line ∈ lines, line.length < 79) (tempData : List MedicineEntry) :
    scanLoop strings lines tempData = none := by
  induction lines generalizing tempData with
  | nil => obtain ⟨line, hl, _⟩ := h; cases hl
  | cons l rest ih =>
    obtain ⟨line, hl, hshort⟩ := h
    simp only [scanLoop]
    cases hp : parseFixedWidthLine strings l with
    | none => rfl
    | some entry =>
      rcases List.mem_cons.1 hl with hl | hl
      · subst hl
        rw [parse_eq_none strings line hshort] at hp
        cases hp
      · exact ih ⟨line, hl, hshort⟩ _

theorem scanLoop_eq_some (strings : StringsPkg) (lines : List GoString)
    (h : ∀ line ∈ lines, 79 ≤ line.length) (tempData : List MedicineEntry) :
    ∃ catalog, scanLoop strings lines tempData = some (tempData ++ catalog) ∧
      lines.map (parseFixedWidthLine strings) = catalog.map some := by
  induction lines generalizing tempData with
  | nil => exact ⟨[], by simp [scanLoop], rfl⟩
  | cons l rest ih =>
    obtain ⟨entry, hl⟩ : ∃ entry, parseFixedWidthLine strings l = some entry :=
      ⟨_, parse_eq_some strings l (h l (List.mem_cons_self _ _))⟩
    obtain ⟨cat, hcat, hmap⟩ := ih (fun x hx => h x (List.mem_cons_of_mem _ hx))
      (tempData ++ [entry])
    refine ⟨entry :: cat, ?_, ?_⟩
    · simp only [scanLoop, hl]
      rw [hcat]
      simp
    · simp only [List.map_cons, hl, hmap]

/-- Whatever the file, `loadNAPPIFile` leaves the package variables as they were or replaces
`medicineData` alone. -/
theorem load_frame (strings : StringsPkg) (file : Option Scan) (st : State) :
    loadNAPPIFile strings file st = .error st ∨ loadNAPPIFile strings file st = .panic st ∨
      ∃ catalog, loadNAPPIFile strings file st = .ok ⟨catalog, st.productNameIndex⟩ := by
  unfold loadNAPPIFile
  cases file with
  | none => exact Or.inl rfl
  | some scan =>
    simp only []
    cases scanLoop strings scan.lines [] with
    | none => exact Or.inr (Or.inl rfl)
    | some tempData =>
      cases hf : scan.scanFailed with
      | true => exact Or.inl (by simp)
      | false => exact Or.inr (Or.inr ⟨tempData, by simp⟩)

/-- C6: for every line of at least 79 bytes, `parseFixedWidthLine` succeeds and returns the
record whose code, name, strength and form are the byte ranges `[11,20)`, `[20,58)`,
`[59,75)` and `[75,79)` of the line, each passed through `strings.TrimSpace`. -/
theorem parse_line (strings : StringsPkg) (line : GoString) (h : 79 ≤ line.length) :
    ∃ code name strength form,
      IsByteRange line 11 20 code ∧ IsByteRange line 20 58 name ∧
      IsByteRange line 59 75 strength ∧ IsByteRange line 75 79 form ∧
      parseFixedWidthLine strings line = some
        ⟨strings.TrimSpace code, strings.TrimSpace name, strings.TrimSpace strength,
          strings.TrimSpace form⟩ :=
  ⟨_, _, _, _, isByteRange_slice line 11 20 (by omega) (by omega),
    isByteRange_slice line 20 58 (by omega) (by omega),
    isByteRange_slice line 59 75 (by omega) (by omega),
    isByteRange_slice line 75 79 (by omega) (by omega), parse_eq_some strings line h⟩

/-- The sample line of 80 bytes instantiates C6; its parse is the sample record. -/
theorem parse_line_witness :
    (79 ≤ sampleLine.length ∧ parseFixedWidthLine goStrings sampleLine = some sampleEntry) ∧
    ∃ code name strength form,
      IsByteRange sampleLine 11 20 code ∧ IsByteRange sampleLine 20 58 name ∧
      IsByteRange sampleLine 59 75 strength ∧ IsByteRange sampleLine 75 79 form ∧
      parseFixedWidthLine goStrings sampleLine = some
        ⟨goStrings.TrimSpace code, goStrings.TrimSpace name, goStrings.TrimSpace strength,
          goStrings.TrimSpace form⟩ :=
  ⟨by decide, parse_line goStrings sampleLine (by decide)⟩

/-- C7, as stated, fails: on a source whose only line has 70 bytes `loadNAPPIFile` does not
return an error; the slice expression panics.  The package variables are as before. -/
theorem load_short_line_counterexample :
    loadNAPPIFile goStrings (some ⟨[List.replicate 70 32], false⟩)
        (initIndex goStrings ⟨[sampleEntry], []⟩) =
      .panic (initIndex goStrings ⟨[sampleEntry], []⟩) ∧
    ∀ st, loadNAPPIFile goStrings (some ⟨[List.replicate 70 32], false⟩)
        (initIndex goStrings ⟨[sampleEntry], []⟩) ≠ .error st := by
  have h : loadNAPPIFile goStrings (some ⟨[List.replicate 70 32], false⟩)
        (initIndex goStrings ⟨[sampleEntry], []⟩) =
      .panic (initIndex goStrings ⟨[sampleEntry], []⟩) := by decide
  refine ⟨h, ?_⟩
  intro st hst
  rw [h] at hst
  cases hst

/-- C7 (amended): for every prior state and every opened source in which some scanned line is
shorter than 79 bytes, `loadNAPPIFile` does not return: it ends in a run-time panic, with
`medicineData` and `productNameIndex` exactly as before the call. -/
theorem load_short_line (strings : StringsPkg) (scan : Scan) (st : State)
    (h : ∃ line ∈ scan.lines, line.length < 79) :
    loadNAPPIFile strings (some scan) st = .panic st := by
  simp [loadNAPPIFile, scanLoop_eq_none strings scan.lines h []]

/-- A well-formed line followed by a line of 60 bytes (scenario E) instantiates the amended
C7. -/
theorem load_short_line_witness :
    loadNAPPIFile goStrings (some ⟨[sampleLine, List.replicate 60 32], false⟩)
        (initIndex goStrings ⟨[sampleEntry], []⟩) =
      .panic (initIndex goStrings ⟨[sampleEntry], []⟩) :=
  load_short_line goStrings ⟨[sampleLine, List.replicate 60 32], false⟩ _
    ⟨List.replicate 60 32, by decide, by decide⟩

/-- C8, as stated, fails when the scanner stops with an error (a read error, or a line
longer than its buffer of 64 KiB): every line it delivered has at least 79 bytes, and
`loadNAPPIFile` returns the error and keeps the previous catalog. -/
theorem load_success_counterexample :
    (∀ line ∈ [sampleLine], 79 ≤ line.length) ∧
    loadNAPPIFile goStrings (some ⟨[sampleLine], true⟩)
        (initIndex goStrings ⟨catalogOfNames ["PARACETAMOL SYRUP"], []⟩) =
      .error (initIndex goStrings ⟨catalogOfNames ["PARACETAMOL SYRUP"], []⟩) := by
  decide

/-- C8 (amended): for every source that opens, that the scanner reads to its end without
error and whose lines all have at least 79 bytes, `loadNAPPIFile` returns nil, and the new
`medicineData` is the sequence of the `parseFixedWidthLine` results of the lines, in source
order, whatever the previous catalog; `productNameIndex` is not touched. -/
theorem load_success (strings : StringsPkg) (scan : Scan) (st : State)
    (hlines : ∀ line ∈ scan.lines, 79 ≤ line.length) (hscan : scan.scanFailed = false) :
    ∃ catalog : List MedicineEntry,
      loadNAPPIFile strings (some scan) st = .ok ⟨catalog, st.productNameIndex⟩ ∧
      catalog.length = scan.lines.length ∧
      scan.lines.map (parseFixedWidthLine strings) = catalog.map some ∧
      ∀ (i : Nat) (line : GoString), scan.lines[i]? = some line → parseFixedWidthLine strings line = catalog[i]? := by
  obtain ⟨cat, hcat, hmap⟩ := scanLoop_eq_some strings scan.lines hlines []
  have hlen : cat.length = scan.lines.length := by
    have := congrArg List.length hmap
    simpa using this.symm
  refine ⟨cat, by simp [loadNAPPIFile, hcat, hscan], hlen, hmap, ?_⟩
  intro i line hi
  have h1 : (scan.lines.map (parseFixedWidthLine strings))[i]? =
      some (parseFixedWidthLine strings line) := by
    rw [List.getElem?_map, hi]; rfl
  rw [hmap, List.getElem?_map] at h1
  cases hc : cat[i]? with
  | none => rw [hc] at h1; cases h1
  | some e => rw [hc] at h1; simpa using h1.symm

/-- Two well-formed lines loaded over a one-record catalog instantiate the amended C8. -/
theorem load_success_witness :
    ∃ catalog : List MedicineEntry,
      loadNAPPIFile goStrings (some ⟨[sampleLine, sampleLine], false⟩)
        ⟨catalogOfNames ["PARACETAMOL SYRUP"], []⟩ = .ok ⟨catalog, []⟩ ∧
      catalog.length = [sampleLine, sampleLine].length ∧
      [sampleLine, sampleLine].map (parseFixedWidthLine goStrings) = catalog.map some ∧
      ∀ (i : Nat) (line : GoString), [sampleLine, sampleLine][i]? = some line →
        parseFixedWidthLine goStrings line = catalog[i]? :=
  load_success goStrings ⟨[sampleLine, sampleLine], false⟩
    ⟨catalogOfNames ["PARACETAMOL SYRUP"], []⟩ (by decide) rfl

/-! ## The pairing of catalog and index -/

theorem paired_of_index_nil (strings : StringsPkg) (st : State) (h : st.productNameIndex = []) :
    Paired strings st := by
  intro key positions i hp
  rw [h] at hp
  cases hp

theorem paired_initIndex (strings : StringsPkg) (st : State) :
    Paired strings (initIndex strings st) := by
  intro key positions i hp hi
  exact (mem_initIndex strings st key i).1 ⟨(key, positions), hp, rfl, hi⟩

/-- C9, as stated, fails: the state built from a one-record catalog satisfies the pairing
predicate; loading an empty file into it succeeds and replaces the catalog alone, so the
index still lists position 0, which the new catalog does not have; a search for "aspirin" in
that state reads `medicineData[0]` out of range. -/
theorem pairing_counterexample :
    Paired goStrings (initIndex goStrings ⟨[sampleEntry], []⟩) ∧
    loadNAPPIFile goStrings (some ⟨[], false⟩) (initIndex goStrings ⟨[sampleEntry], []⟩) =
      .ok ⟨[], [(ascii "aspirin 300mg tablet", [0])]⟩ ∧
    ¬ Paired goStrings ⟨[], [(ascii "aspirin 300mg tablet", [0])]⟩ ∧
    FindMedicineEntriesByKeywords goStrings ⟨[], [(ascii "aspirin 300mg tablet", [0])]⟩
      (ascii "aspirin") = none := by
  refine ⟨paired_initIndex _ _, by decide, ?_, by decide⟩
  intro h
  obtain ⟨entry, he, _⟩ := h (ascii "aspirin 300mg tablet") [0] 0
    (List.mem_singleton.2 rfl) (List.mem_singleton.2 rfl)
  simp at he

/-- C9 (amended): the pairing predicate holds in the initial state and after `initIndex` from
any state, hence after a successful `loadNAPPIFile` followed by `initIndex`; a
`loadNAPPIFile` that does not succeed leaves both variables as they were, so it preserves the
predicate; a successful `loadNAPPIFile` replaces `medicineData` alone and preserves the
predicate when `productNameIndex` is empty, as it is at startup. -/
theorem pairing_invariant (strings : StringsPkg) :
    Paired strings State.initial ∧
    (∀ st, Paired strings (initIndex strings st)) ∧
    (∀ file st st', loadNAPPIFile strings file st = .ok st' →
      st'.productNameIndex = st.productNameIndex ∧ Paired strings (initIndex strings st')) ∧
    (∀ file st st', Paired strings st →
      loadNAPPIFile strings file st = .error st' ∨ loadNAPPIFile strings file st = .panic st' →
      st' = st ∧ Paired strings st') ∧
    (∀ file st st', st.productNameIndex = [] → loadNAPPIFile strings file st = .ok st' →
      Paired strings st') := by
  have hframe : ∀ file st st', loadNAPPIFile strings file st = .ok st' →
      st'.productNameIndex = st.productNameIndex := by
    intro file st st' h
    rcases load_frame strings file st with h' | h' | ⟨catalog, h'⟩
    · rw [h'] at h; cases h
    · rw [h'] at h; cases h
    · rw [h'] at h; cases h; rfl
  refine ⟨paired_of_index_nil strings _ rfl, paired_initIndex strings, ?_, ?_, ?_⟩
  · intro file st st' h
    exact ⟨hframe file st st' h, paired_initIndex strings st'⟩
  · intro file st st' hp h
    have hst : st' = st := by
      rcases load_frame strings file st with h' | h' | ⟨catalog, h'⟩
      · rcases h with h | h
        · rw [h'] at h; cases h; rfl
        · rw [h'] at h; cases h
      · rcases h with h | h
        · rw [h'] at h; cases h
        · rw [h'] at h; cases h; rfl
      · rcases h with h | h
        · rw [h'] at h; cases h
        · rw [h'] at h; cases h
    exact ⟨hst, hst ▸ hp⟩
  · intro file st st' hidx h
    exact paired_of_index_nil strings st' ((hframe file st st' h).trans hidx)

/-- The startup sequence on a two-line file instantiates the amended C9: the load from the
initial state keeps the predicate, and so does `initIndex` after it. -/
theorem pairing_invariant_witness :
    Paired goStrings ⟨[sampleEntry, sampleEntry], []⟩ ∧
      Paired goStrings (initIndex goStrings ⟨[sampleEntry, sampleEntry], []⟩) :=
  ⟨(pairing_invariant goStrings).2.2.2.2 (some ⟨[sampleLine, sampleLine], false⟩)
      State.initial ⟨[sampleEntry, sampleEntry], []⟩ rfl (by decide),
    ((pairing_invariant goStrings).2.2.1 (some ⟨[sampleLine, sampleLine], false⟩)
      State.initial ⟨[sampleEntry, sampleEntry], []⟩ (by decide)).2⟩

/-! ## The search does not panic -/

/-- In any state, the search returns exactly when every position it reads is a position of
the catalog. -/
theorem find_isSome_iff (strings : StringsPkg) (st : State) (keywords : GoString) :
    (FindMedicineEntriesByKeywords strings st keywords).isSome ↔
      ∀ i ∈ catalogAccesses strings st keywords, i < st.medicineData.length := by
  unfold FindMedicineEntriesByKeywords catalogAccesses
  simp only []
  by_cases hk : (strings.Fields keywords).length = 0
  · simp [hk]
  · simp only [hk, if_false, collect_isSome_iff, List.mem_map, List.mem_filter,
      decide_eq_true_eq]
    constructor
    · rintro h i ⟨p, ⟨hp, hlen⟩, rfl⟩
      exact h p hp hlen
    · intro h p hp hlen
      exact h p.1 ⟨p, ⟨hp, hlen⟩, rfl⟩

/-- C10: for every catalog, with the index built from it by `initIndex`, and every query, the
search returns a result, and every position at which it reads `medicineData[entryIndex]` is
within range. -/
theorem search_cannot_fail (strings : StringsPkg) (st : State) (keywords : GoString) :
    (∃ r, FindMedicineEntriesByKeywords strings (initIndex strings st) keywords = some r) ∧
      ∀ i ∈ catalogAccesses strings (initIndex strings st) keywords,
        i < st.medicineData.length := by
  obtain ⟨r, hr, _⟩ := find_initIndex strings st keywords
  refine ⟨⟨r, hr⟩, ?_⟩
  have := (find_isSome_iff strings (initIndex strings st) keywords).1 (by rw [hr]; rfl)
  simpa using this

/-! ## The result as a list of records -/

theorem filter_eq_filterMap_range {α : Type} (c : α → Bool) (l : List α) :
    l.filter c = (List.range l.length).filterMap (fun j => (l[j]?).filter c) := by
  induction l with
  | nil => rfl
  | cons a l ih =>
    rw [List.length_cons, List.range_succ_eq_map, List.filterMap_cons, List.filterMap_map]
    have hcomp : ((fun j => ((a :: l)[j]?).filter c) ∘ Nat.succ) =
        (fun j => (l[j]?).filter c) := by
      funext j
      simp
    rw [hcomp, ← ih]
    by_cases hc : c a = true
    · simp [Option.filter, hc]
    · simp [Option.filter, hc]

theorem filterMap_filter_isSome {α β : Type} (g : α → Option β) (l : List α) :
    (l.filter (fun j => (g j).isSome)).filterMap g = l.filterMap g := by
  induction l with
  | nil => rfl
  | cons a l ih =>
    cases h : g a with
    | none => simp [List.filter_cons, List.filterMap_cons, h, ih]
    | some b => simp [List.filter_cons, List.filterMap_cons, h, ih]

/-- Two duplicate-free lists that hold the same elements among those on which `g` is
defined have the same images under `g`, up to order. -/
theorem filterMap_perm_of_nodup {α β : Type} (g : α → Option β) (l₁ l₂ : List α)
    (nd₁ : l₁.Nodup) (nd₂ : l₂.Nodup)
    (h : ∀ j, (g j).isSome = true → (j ∈ l₁ ↔ j ∈ l₂)) :
    (l₁.filterMap g).Perm (l₂.filterMap g) := by
  rw [← filterMap_filter_isSome g l₁, ← filterMap_filter_isSome g l₂]
  apply List.Perm.filterMap
  rw [List.perm_ext_iff_of_nodup (nd₁.filter _) (nd₂.filter _)]
  intro j
  simp only [List.mem_filter]
  constructor
  · rintro ⟨hj, hs⟩; exact ⟨(h j hs).1 hj, hs⟩
  · rintro ⟨hj, hs⟩; exact ⟨(h j hs).2 hj, hs⟩

/-- In a state whose map is an index of its catalog, for a query with at least one token
and pairwise distinct lower-cased tokens, the result holds, once per catalog position and in
some order, the records that every token hits. -/
theorem find_perm_indexOf (strings : StringsPkg) (st : State)
    (hidx : IndexOf strings st.medicineData st.productNameIndex) (keywords : GoString)
    (hne : strings.Fields keywords ≠ [])
    (hnd : ((strings.Fields keywords).map strings.ToLower).Nodup) :
    ∃ r, FindMedicineEntriesByKeywords strings st keywords = some r ∧
      r.Perm (st.medicineData.filter
        (fun e => (strings.Fields keywords).all (keywordHits strings e))) := by
  have hk : (strings.Fields keywords).length ≠ 0 := fun h => hne (List.length_eq_zero.1 h)
  have hin := accesses_inRange hidx (strings.Fields keywords) hk
  have wf := wellFormed_buildMatches strings st.productNameIndex (strings.Fields keywords)
  unfold FindMedicineEntriesByKeywords
  simp only [hk, if_false]
  rw [collect_eq_some _ _ _ _ hin]
  refine ⟨_, rfl, ?_⟩
  simp only [List.nil_append]
  have h1 : (buildMatches strings st.productNameIndex (strings.Fields keywords)).filterMap
      (fun p => if p.2.length = (strings.Fields keywords).length
        then st.medicineData[p.1]? else none) =
      (buildMatches strings st.productNameIndex (strings.Fields keywords)).keys.filterMap
        (fun j => (st.medicineData[j]?).filter
          (fun e => (strings.Fields keywords).all (keywordHits strings e))) := by
    unfold GoMap.keys
    rw [List.filterMap_map]
    apply List.filterMap_congr
    rintro ⟨j, m⟩ hp
    have hget := GoMap.get?_of_mem wf.1 hp
    simp only [Function.comp]
    by_cases hm : m.length = (strings.Fields keywords).length
    · have hj := hin (j, m) hp hm
      have he : st.medicineData[j]? = some st.medicineData[j] := List.getElem?_eq_getElem hj
      have hq := (qualifies_iff hidx _ j _ he).1 ((length_matchedKeys hget).trans hm)
      have hall : (strings.Fields keywords).all (keywordHits strings st.medicineData[j]) =
          true := List.all_eq_true.2 hq.1
      simp only [hm, if_true]
      rw [he]
      simp [Option.filter, hall]
    · simp only [hm, if_false]
      cases he : st.medicineData[j]? with
      | none => rfl
      | some e =>
        have hc : (strings.Fields keywords).all (keywordHits strings e) = false := by
          by_contra hc
          have hall := List.all_eq_true.1 (Bool.eq_true_of_not_eq_false hc)
          have hq := (qualifies_iff hidx _ j e he).2 ⟨hall, hnd⟩
          exact hm ((length_matchedKeys hget).symm.trans hq)
        simp [Option.filter, hc]
  rw [h1, filter_eq_filterMap_range]
  apply filterMap_perm_of_nodup _ _ _ wf.1 (List.nodup_range _)
  intro j hs
  obtain ⟨e, hfe⟩ := Option.isSome_iff_exists.1 hs
  cases he : st.medicineData[j]? with
  | none => rw [he] at hfe; cases hfe
  | some e' =>
    rw [he] at hfe
    have hc : (strings.Fields keywords).all (keywordHits strings e') = true := by
      by_contra hc
      simp [Option.filter, hc] at hfe
    have hq := (qualifies_iff hidx _ j e' he).2 ⟨List.all_eq_true.1 hc, hnd⟩
    have hj : j < st.medicineData.length := (List.getElem?_eq_some_iff.1 he).1
    have hkey : j ∈ (buildMatches strings st.productNameIndex
        (strings.Fields keywords)).keys := by
      cases hget : (buildMatches strings st.productNameIndex
          (strings.Fields keywords)).get? j with
      | none =>
        simp [matchedKeys, hget, GoMap.keys] at hq
        exact absurd hq.symm hk
      | some m => exact GoMap.mem_keys_of_get? hget
    simp [hkey, hj]

/-! ## Further claims on the search -/

/-- C11, as stated, fails on the empty query: its (empty) token list meets the conditions on
the tokens, every record of the catalog passes the filter, and the search returns nothing. -/
theorem result_is_permutation_counterexample :
    goStrings.Fields (ascii "") = [] ∧
    FindMedicineEntriesByKeywords goStrings
      (initIndex goStrings ⟨catalogOfNames ["ASPIRIN 300MG TABLET"], []⟩) (ascii "") = some [] ∧
    (catalogOfNames ["ASPIRIN 300MG TABLET"]).filter (fun e =>
      (goStrings.Fields (ascii "")).all (fun kw =>
        Contains (goStrings.ToLower e.ProductName) (goStrings.ToLower kw))) =
      catalogOfNames ["ASPIRIN 300MG TABLET"] ∧
    ¬ ([] : List MedicineEntry).Perm (catalogOfNames ["ASPIRIN 300MG TABLET"]) := by
  refine ⟨by decide, by decide, by decide, ?_⟩
  intro h
  have := h.length_eq
  simp [catalogOfNames] at this

/-- C11 (amended): for every catalog, with the index built from it by `initIndex`, and every
query that has at least one token and whose tokens all have at least 3 bytes and are pairwise
distinct after lower-casing, the result of the search is a permutation of the list of catalog
records, taken once per position, whose lower-cased `ProductName` contains every lower-cased
token as a contiguous substring. -/
theorem result_is_permutation (strings : StringsPkg) (st : State) (keywords : GoString)
    (hne : strings.Fields keywords ≠ [])
    (hlen : ∀ kw ∈ strings.Fields keywords, 3 ≤ kw.length)
    (hnd : ((strings.Fields keywords).map strings.ToLower).Nodup) :
    ∃ r, FindMedicineEntriesByKeywords strings (initIndex strings st) keywords = some r ∧
      r.Perm (st.medicineData.filter (fun e =>
        (strings.Fields keywords).all (fun kw =>
          Contains (strings.ToLower e.ProductName) (strings.ToLower kw)))) := by
  obtain ⟨r, hr, hperm⟩ := find_perm_indexOf strings (initIndex strings st)
    (indexOf_initIndex strings st) keywords hne hnd
  refine ⟨r, hr, ?_⟩
  have hfilter : ∀ e : MedicineEntry, (strings.Fields keywords).all (fun kw =>
      Contains (strings.ToLower e.ProductName) (strings.ToLower kw)) =
      (strings.Fields keywords).all (keywordHits strings e) := by
    intro e
    rw [Bool.eq_iff_iff, List.all_eq_true, List.all_eq_true]
    constructor
    · intro h kw hkw
      simp only [keywordHits, Bool.and_eq_true, decide_eq_true_eq]
      exact ⟨hlen kw hkw, h kw hkw⟩
    · intro h kw hkw
      have := h kw hkw
      simp only [keywordHits, Bool.and_eq_true, decide_eq_true_eq] at this
      exact this.2
  have hfun : (fun e : MedicineEntry => (strings.Fields keywords).all (fun kw =>
      Contains (strings.ToLower e.ProductName) (strings.ToLower kw))) =
      (fun e => (strings.Fields keywords).all (keywordHits strings e)) := by
    funext e
    exact hfilter e
  rw [hfun]
  exact hperm

/-- Scenarios A and D instantiate the amended C11: "asp tab" on the catalog of
"ASPIRIN 300MG TABLET" returns that record, and "paracetamol syrup" on the catalog of
"PARACETAMOL 500MG" and "PARACETAMOL SYRUP" returns exactly the second record. -/
theorem result_is_permutation_witness :
    (FindMedicineEntriesByKeywords goStrings
        (initIndex goStrings ⟨catalogOfNames ["ASPIRIN 300MG TABLET"], []⟩) (ascii "asp tab") =
        some (catalogOfNames ["ASPIRIN 300MG TABLET"]) ∧
      FindMedicineEntriesByKeywords goStrings
        (initIndex goStrings ⟨catalogOfNames ["PARACETAMOL 500MG", "PARACETAMOL SYRUP"], []⟩)
        (ascii "paracetamol syrup") = some (catalogOfNames ["PARACETAMOL SYRUP"])) ∧
    ∃ r, FindMedicineEntriesByKeywords goStrings
        (initIndex goStrings ⟨catalogOfNames ["PARACETAMOL 500MG", "PARACETAMOL SYRUP"], []⟩)
        (ascii "paracetamol syrup") = some r ∧
      r.Perm ((catalogOfNames ["PARACETAMOL 500MG", "PARACETAMOL SYRUP"]).filter (fun e =>
        (goStrings.Fields (ascii "paracetamol syrup")).all (fun kw =>
          Contains (goStrings.ToLower e.ProductName) (goStrings.ToLower kw)))) :=
  ⟨by decide,
    result_is_permutation goStrings
      ⟨catalogOfNames ["PARACETAMOL 500MG", "PARACETAMOL SYRUP"], []⟩
      (ascii "paracetamol syrup") (by decide) (by decide) (by decide)⟩

/-- C12: for every catalog, with the index built from it by `initIndex`, and every two
queries whose token lists are permutations of each other, the search returns the same set of
records. -/
theorem token_order_irrelevant (strings : StringsPkg) (st : State) (q₁ q₂ : GoString)
    (h : (strings.Fields q₁).Perm (strings.Fields q₂)) :
    ∃ r₁ r₂, FindMedicineEntriesByKeywords strings (initIndex strings st) q₁ = some r₁ ∧
      FindMedicineEntriesByKeywords strings (initIndex strings st) q₂ = some r₂ ∧
      ∀ e, e ∈ r₁ ↔ e ∈ r₂ := by
  obtain ⟨r₁, hr₁, hm₁⟩ := find_initIndex strings st q₁
  obtain ⟨r₂, hr₂, hm₂⟩ := find_initIndex strings st q₂
  refine ⟨r₁, r₂, hr₁, hr₂, ?_⟩
  intro e
  rw [hm₁, hm₂]
  have hnil : strings.Fields q₁ ≠ [] ↔ strings.Fields q₂ ≠ [] := by
    constructor
    · intro h1 h2; rw [h2] at h; exact h1 h.eq_nil
    · intro h2 h1; rw [h1] at h; exact h2 h.symm.eq_nil
  have hall : (∀ kw ∈ strings.Fields q₁, keywordHits strings e kw = true) ↔
      (∀ kw ∈ strings.Fields q₂, keywordHits strings e kw = true) := by
    constructor
    · intro h1 kw hkw; exact h1 kw (h.mem_iff.2 hkw)
    · intro h2 kw hkw; exact h2 kw (h.mem_iff.1 hkw)
  rw [hnil, hall, (h.map strings.ToLower).nodup_iff]

/-- The queries "asp tab" and "tab asp" instantiate C12. -/
theorem token_order_irrelevant_witness :
    ∃ r₁ r₂, FindMedicineEntriesByKeywords goStrings
        (initIndex goStrings ⟨catalogOfNames ["ASPIRIN 300MG TABLET"], []⟩) (ascii "asp tab") =
        some r₁ ∧
      FindMedicineEntriesByKeywords goStrings
        (initIndex goStrings ⟨catalogOfNames ["ASPIRIN 300MG TABLET"], []⟩) (ascii "tab asp") =
        some r₂ ∧
      ∀ e, e ∈ r₁ ↔ e ∈ r₂ :=
  token_order_irrelevant goStrings ⟨catalogOfNames ["ASPIRIN 300MG TABLET"], []⟩
    (ascii "asp tab") (ascii "tab asp") (by decide)

/-- C17: for every catalog, with the index built from it by `initIndex`, and every query,
every record the search returns is a record of the catalog whose lower-cased `ProductName`
contains, as a contiguous substring, the lower-cased form of every query token of at least 3
bytes. -/
theorem search_sound (strings : StringsPkg) (st : State) (keywords : GoString) :
    ∃ r, FindMedicineEntriesByKeywords strings (initIndex strings st) keywords = some r ∧
      ∀ e ∈ r, e ∈ st.medicineData ∧
        ∀ kw ∈ strings.Fields keywords, 3 ≤ kw.length →
          strings.ToLower kw <:+: strings.ToLower e.ProductName := by
  obtain ⟨r, hr, hmem⟩ := find_initIndex strings st keywords
  refine ⟨r, hr, ?_⟩
  intro e he
  obtain ⟨_, hin, hall, _⟩ := (hmem e).1 he
  refine ⟨hin, ?_⟩
  intro kw hkw _
  have := hall kw hkw
  simp only [keywordHits, Bool.and_eq_true, decide_eq_true_eq] at this
  exact (contains_iff _ _).1 this.2

/-- C19, as stated, fails when the query has no token: the empty query returns nothing,
while the empty query followed by the token "asp" returns the record. -/
theorem narrowing_counterexample :
    FindMedicineEntriesByKeywords goStrings
      (initIndex goStrings ⟨catalogOfNames ["ASPIRIN 300MG TABLET"], []⟩) (ascii "") = some [] ∧
    FindMedicineEntriesByKeywords goStrings
      (initIndex goStrings ⟨catalogOfNames ["ASPIRIN 300MG TABLET"], []⟩)
      (ascii "" ++ ascii " " ++ ascii "asp") = some (catalogOfNames ["ASPIRIN 300MG TABLET"]) := by
  decide

/-- C19 (amended): for every catalog, with the index built from it by `initIndex`, every
query `q` with at least one token and every query `q'` whose tokens are those of `q`
followed by one more token `t`, every record returned for `q'` is returned for `q`. -/
theorem narrowing (strings : StringsPkg) (st : State) (q q' t : GoString)
    (hq : strings.Fields q ≠ [])
    (hq' : strings.Fields q' = strings.Fields q ++ [t]) :
    ∃ r r', FindMedicineEntriesByKeywords strings (initIndex strings st) q = some r ∧
      FindMedicineEntriesByKeywords strings (initIndex strings st) q' = some r' ∧
      ∀ e ∈ r', e ∈ r := by
  obtain ⟨r, hr, hm⟩ := find_initIndex strings st q
  obtain ⟨r', hr', hm'⟩ := find_initIndex strings st q'
  refine ⟨r, r', hr, hr', ?_⟩
  intro e he
  obtain ⟨_, hin, hall, hnd⟩ := (hm' e).1 he
  rw [hq'] at hall hnd
  refine (hm e).2 ⟨hq, hin, ?_, ?_⟩
  · intro kw hkw
    exact hall kw (List.mem_append_left _ hkw)
  · rw [List.map_append] at hnd
    exact hnd.of_append_left

/-- The query "aspirin" followed by the token "tab" instantiates the amended C19. -/
theorem narrowing_witness :
    ∃ r r', FindMedicineEntriesByKeywords goStrings
        (initIndex goStrings ⟨catalogOfNames ["ASPIRIN 300MG TABLET", "ASPIRIN SYRUP"], []⟩)
        (ascii "aspirin") = some r ∧
      FindMedicineEntriesByKeywords goStrings
        (initIndex goStrings ⟨catalogOfNames ["ASPIRIN 300MG TABLET", "ASPIRIN SYRUP"], []⟩)
        (ascii "aspirin" ++ ascii " " ++ ascii "tab") = some r' ∧
      ∀ e ∈ r', e ∈ r :=
  narrowing goStrings ⟨catalogOfNames ["ASPIRIN 300MG TABLET", "ASPIRIN SYRUP"], []⟩
    (ascii "aspirin") (ascii "aspirin" ++ ascii " " ++ ascii "tab") (ascii "tab")
    (by decide) (by decide)

/-! ## The ASCII instance of the `strings` package -/

theorem toNat_toUInt8 (n : Nat) : (n.toUInt8).toNat = n % 256 := rfl

theorem beq_byte (b : UInt8) (k : Nat) (hk : k < 256) :
    (b == UInt8.ofNat k) = decide (b.toNat = k) := by
  by_cases h : b.toNat = k
  · have : b = UInt8.ofNat k := UInt8.ext (by rw [h]; show k = k % 256; omega)
    simp [this, h]
    show k % 256 = k
    omega
  · have : b ≠ UInt8.ofNat k := by
      intro e; apply h; rw [e]; show k % 256 = k; omega
    simp [this, h]

theorem isSpaceByte_eq (b : UInt8) : isSpaceByte b =
    decide (b.toNat = 9 ∨ b.toNat = 10 ∨ b.toNat = 11 ∨ b.toNat = 12 ∨ b.toNat = 13 ∨
      b.toNat = 32) := by
  unfold isSpaceByte
  have h9 := beq_byte b 9 (by omega)
  have h10 := beq_byte b 10 (by omega)
  have h11 := beq_byte b 11 (by omega)
  have h12 := beq_byte b 12 (by omega)
  have h13 := beq_byte b 13 (by omega)
  have h32 := beq_byte b 32 (by omega)
  change (b == 9) = _ at h9
  change (b == 10) = _ at h10
  change (b == 11) = _ at h11
  change (b == 12) = _ at h12
  change (b == 13) = _ at h13
  change (b == 32) = _ at h32
  rw [h9, h10, h11, h12, h13, h32]
  simp [Bool.decide_or, Bool.or_assoc]

theorem toNat_lowerByte (b : UInt8) :
    (lowerByte b).toNat = if 65 ≤ b.toNat ∧ b.toNat ≤ 90 then b.toNat + 32 else b.toNat := by
  unfold lowerByte
  split
  · rename_i h
    rw [toNat_toUInt8]; omega
  · rfl

theorem isSpaceByte_lowerByte (b : UInt8) : isSpaceByte (lowerByte b) = isSpaceByte b := by
  rw [isSpaceByte_eq, isSpaceByte_eq, toNat_lowerByte]
  split
  · rename_i h
    have h1 : ¬ (b.toNat = 9 ∨ b.toNat = 10 ∨ b.toNat = 11 ∨ b.toNat = 12 ∨ b.toNat = 13 ∨
        b.toNat = 32) := by omega
    have h2 : ¬ (b.toNat + 32 = 9 ∨ b.toNat + 32 = 10 ∨ b.toNat + 32 = 11 ∨
        b.toNat + 32 = 12 ∨ b.toNat + 32 = 13 ∨ b.toNat + 32 = 32) := by omega
    simp only [h1, h2]
  · rfl

theorem lowerByte_lowerByte (b : UInt8) : lowerByte (lowerByte b) = lowerByte b := by
  apply UInt8.ext
  rw [toNat_lowerByte, toNat_lowerByte]
  by_cases h : 65 ≤ b.toNat ∧ b.toNat ≤ 90
  · rw [if_pos h, if_neg (by omega)]
  · rw [if_neg h, if_neg h]

theorem fieldsLoop_map_lowerByte (q cur : GoString) :
    fieldsLoop (q.map lowerByte) (cur.map lowerByte) =
      (fieldsLoop q cur).map (List.map lowerByte) := by
  induction q generalizing cur with
  | nil =>
    cases cur <;> simp [fieldsLoop]
  | cons b rest ih =>
    simp only [List.map_cons, fieldsLoop, isSpaceByte_lowerByte]
    by_cases hb : isSpaceByte b = true
    · simp only [hb, if_true]
      cases cur with
      | nil => simpa using ih []
      | cons c cur => simpa using ih []
    · simp only [hb]
      have := ih (cur ++ [b])
      simpa using this

theorem fieldsLoop_token (t cur : GoString) (ht : ∀ b ∈ t, isSpaceByte b = false)
    (hne : cur ++ t ≠ []) : fieldsLoop t cur = [cur ++ t] := by
  induction t generalizing cur with
  | nil =>
    cases cur with
    | nil => simp at hne
    | cons c cur => simp [fieldsLoop]
  | cons b rest ih =>
    have hb := ht b (List.mem_cons_self _ _)
    simp only [fieldsLoop, hb]
    have := ih (cur ++ [b]) (fun c hc => ht c (List.mem_cons_of_mem _ hc)) (by simp)
    simpa using this

theorem fieldsLoop_append_token (q t cur : GoString) (ht : ∀ b ∈ t, isSpaceByte b = false)
    (hne : t ≠ []) : fieldsLoop (q ++ 32 :: t) cur = fieldsLoop q cur ++ [t] := by
  have htok : fieldsLoop t [] = [t] := by
    simpa using fieldsLoop_token t [] ht (by simpa using hne)
  induction q generalizing cur with
  | nil =>
    have h32 : isSpaceByte 32 = true := by decide
    cases cur with
    | nil => simp [fieldsLoop, h32, htok]
    | cons c cur => simp [fieldsLoop, h32, htok]
  | cons b rest ih =>
    simp only [List.cons_append, fieldsLoop]
    by_cases hb : isSpaceByte b = true
    · simp only [hb, if_true]
      cases cur with
      | nil => simpa using ih []
      | cons c cur => simpa using ih []
    · simp only [hb]
      exact ih _

/-- On ASCII text, lower-casing a query lower-cases its tokens one by one. -/
theorem goStrings_fields_toLower (q : GoString) :
    goStrings.Fields (goStrings.ToLower q) = (goStrings.Fields q).map goStrings.ToLower :=
  fieldsLoop_map_lowerByte q []

/-- On ASCII text, lower-casing keeps the length. -/
theorem goStrings_length_toLower (t : GoString) : (goStrings.ToLower t).length = t.length :=
  List.length_map _ _

/-- On ASCII text, lower-casing twice is lower-casing once. -/
theorem goStrings_toLower_toLower (t : GoString) :
    goStrings.ToLower (goStrings.ToLower t) = goStrings.ToLower t := by
  show (t.map lowerByte).map lowerByte = t.map lowerByte
  rw [List.map_map]
  apply List.map_congr_left
  intro b _
  exact lowerByte_lowerByte b

/-- On ASCII text, a query followed by a blank and a token `t` (non-empty, without white
space) has the tokens of the query and then `t`. -/
theorem goStrings_fields_append_token (q t : GoString)
    (ht : ∀ b ∈ t, isSpaceByte b = false) (hne : t ≠ []) :
    goStrings.Fields (q ++ ascii " " ++ t) = goStrings.Fields q ++ [t] := by
  have : q ++ ascii " " ++ t = q ++ 32 :: t := by
    show q ++ [32] ++ t = q ++ 32 :: t
    simp
  rw [this]
  exact fieldsLoop_append_token q t [] ht hne

/-! ## Case of the query -/

/-- C13 fails on the code at a query that lower-casing shortens: the Kelvin sign (3 bytes)
passes the length test and, lower-cased to "k", matches "ketamine", so the record is
returned; the lower-cased query "k" has 1 byte and is skipped, so nothing is returned. -/
theorem kelvin_query_case_sensitive :
    goStringsKelvin.ToLower [0xE2, 0x84, 0xAA] = ascii "k" ∧
    FindMedicineEntriesByKeywords goStringsKelvin
      (initIndex goStringsKelvin ⟨catalogOfNames ["KETAMINE"], []⟩) [0xE2, 0x84, 0xAA] =
      some (catalogOfNames ["KETAMINE"]) ∧
    FindMedicineEntriesByKeywords goStringsKelvin
      (initIndex goStringsKelvin ⟨catalogOfNames ["KETAMINE"], []⟩)
      (goStringsKelvin.ToLower [0xE2, 0x84, 0xAA]) = some [] := by
  decide

/-- Where lower-casing neither splits nor merges the tokens of a query, keeps each token on
its side of the 3-byte threshold and leaves a lower-cased token unchanged, the search
returns the same set of records for the query and for its lower-cased form. -/
theorem same_records_of_stable_tokens (strings : StringsPkg) (st : State) (q : GoString)
    (hfields : strings.Fields (strings.ToLower q) = (strings.Fields q).map strings.ToLower)
    (hlen : ∀ t ∈ strings.Fields q, (3 ≤ (strings.ToLower t).length ↔ 3 ≤ t.length))
    (hidem : ∀ t ∈ strings.Fields q,
      strings.ToLower (strings.ToLower t) = strings.ToLower t) :
    ∃ r r', FindMedicineEntriesByKeywords strings (initIndex strings st) q = some r ∧
      FindMedicineEntriesByKeywords strings (initIndex strings st) (strings.ToLower q) =
        some r' ∧
      ∀ e, e ∈ r ↔ e ∈ r' := by
  obtain ⟨r, hr, hm⟩ := find_initIndex strings st q
  obtain ⟨r', hr', hm'⟩ := find_initIndex strings st (strings.ToLower q)
  refine ⟨r, r', hr, hr', ?_⟩
  intro e
  rw [hm, hm', hfields]
  have hnil : (strings.Fields q).map strings.ToLower ≠ [] ↔ strings.Fields q ≠ [] := by
    simp
  have hmap : ((strings.Fields q).map strings.ToLower).map strings.ToLower =
      (strings.Fields q).map strings.ToLower := by
    rw [List.map_map]
    apply List.map_congr_left
    intro t ht
    exact hidem t ht
  have hall : (∀ kw ∈ (strings.Fields q).map strings.ToLower,
      keywordHits strings e kw = true) ↔
      (∀ kw ∈ strings.Fields q, keywordHits strings e kw = true) := by
    have hhit : ∀ t ∈ strings.Fields q,
        keywordHits strings e (strings.ToLower t) = keywordHits strings e t := by
      intro t ht
      have hd : decide (3 ≤ (strings.ToLower t).length) = decide (3 ≤ t.length) :=
        decide_eq_decide.2 (hlen t ht)
      simp only [keywordHits, hd, hidem t ht]
    constructor
    · intro h t ht
      rw [← hhit t ht]
      exact h _ (List.mem_map.2 ⟨t, ht, rfl⟩)
    · intro h kw hkw
      obtain ⟨t, ht, rfl⟩ := List.mem_map.1 hkw
      rw [hhit t ht]
      exact h t ht
  rw [hnil, hall, hmap]

/-- On ASCII text the search does not depend on the case of the query. -/
theorem same_records_ascii (st : State) (q : GoString) :
    ∃ r r', FindMedicineEntriesByKeywords goStrings (initIndex goStrings st) q = some r ∧
      FindMedicineEntriesByKeywords goStrings (initIndex goStrings st) (goStrings.ToLower q) =
        some r' ∧
      ∀ e, e ∈ r ↔ e ∈ r' :=
  same_records_of_stable_tokens goStrings st q (goStrings_fields_toLower _)
    (fun t _ => by rw [goStrings_length_toLower t])
    (fun t _ => goStrings_toLower_toLower t)

/-! ## The shape of the index -/

/-- Shape of an index under construction, before position `i` is entered: every position
list is non-empty, strictly ascending and made of positions below `i`. -/
def ShapeBelow (i : Nat) (idx : GoMap GoString (List Nat)) : Prop :=
  ∀ k l, idx.get? k = some l → l ≠ [] ∧ l.Pairwise (· < ·) ∧ ∀ x ∈ l, x < i

theorem shapeBelow_nil (i : Nat) : ShapeBelow i [] := by
  intro k l h
  simp [GoMap.get?] at h

theorem shapeBelow_set_append {i : Nat} {idx : GoMap GoString (List Nat)}
    (h : ShapeBelow i idx) (pn : GoString) :
    ShapeBelow (i + 1) (idx.set pn (((idx.get? pn).getD []) ++ [i])) := by
  intro k l hl
  rw [GoMap.get?_set] at hl
  by_cases hk : pn = k
  · simp only [hk, if_true, Option.some.injEq] at hl
    subst hl
    have hold : ((idx.get? k).getD []).Pairwise (· < ·) ∧ ∀ x ∈ (idx.get? k).getD [], x < i := by
      cases hg : idx.get? k with
      | none => simp
      | some l0 => exact ⟨(h k l0 hg).2.1, (h k l0 hg).2.2⟩
    refine ⟨by simp, ?_, ?_⟩
    · rw [List.pairwise_append]
      refine ⟨hold.1, List.pairwise_singleton _ _, ?_⟩
      intro a ha b hb
      rw [List.mem_singleton] at hb
      subst hb
      exact hold.2 a ha
    · intro x hx
      rcases List.mem_append.1 hx with hx | hx
      · exact Nat.lt_succ_of_lt (hold.2 x hx)
      · rw [List.mem_singleton] at hx
        omega
  · simp only [hk, if_false] at hl
    obtain ⟨h1, h2, h3⟩ := h k l hl
    exact ⟨h1, h2, fun x hx => Nat.lt_succ_of_lt (h3 x hx)⟩

theorem shapeBelow_initIndexLoop (strings : StringsPkg) (i : Nat) (data : List MedicineEntry)
    {idx : GoMap GoString (List Nat)} (h : ShapeBelow i idx) :
    ShapeBelow (i + data.length) (initIndexLoop strings i data idx) := by
  induction data generalizing i idx with
  | nil => simpa [initIndexLoop] using h
  | cons e rest ih =>
    have := ih (i + 1) (shapeBelow_set_append h (strings.ToLower e.ProductName))
    simp only [initIndexLoop, List.length_cons]
    have hlen : i + (rest.length + 1) = i + 1 + rest.length := by omega
    rw [hlen]
    exact this

theorem shapeBelow_initIndex (strings : StringsPkg) (st : State) :
    ShapeBelow st.medicineData.length (initIndex strings st).productNameIndex := by
  have := shapeBelow_initIndexLoop strings 0 st.medicineData (shapeBelow_nil 0)
  simpa [initIndex] using this

/-- C15: for every catalog, after `initIndex` every key of `productNameIndex` has a non-empty
position list, and every position list is strictly ascending. -/
theorem index_shape (strings : StringsPkg) (st : State) (key : GoString)
    (hkey : key ∈ (initIndex strings st).productNameIndex.keys) :
    ∃ positions, (initIndex strings st).productNameIndex.get? key = some positions ∧
      positions ≠ [] ∧ positions.Pairwise (· < ·) := by
  cases hg : (initIndex strings st).productNameIndex.get? key with
  | none => exact absurd hkey ((GoMap.get?_eq_none_iff _ _).1 hg)
  | some positions =>
    obtain ⟨h1, h2, _⟩ := shapeBelow_initIndex strings st key positions hg
    exact ⟨positions, rfl, h1, h2⟩

/-- A catalog in which one name occurs at positions 0 and 2 instantiates C15. -/
theorem index_shape_witness :
    (initIndex goStrings
        ⟨catalogOfNames ["ASPIRIN", "PARACETAMOL", "Aspirin"], []⟩).productNameIndex =
      [(ascii "aspirin", [0, 2]), (ascii "paracetamol", [1])] ∧
    ∃ positions, (initIndex goStrings
        ⟨catalogOfNames ["ASPIRIN", "PARACETAMOL", "Aspirin"], []⟩).productNameIndex.get?
        (ascii "aspirin") = some positions ∧
      positions ≠ [] ∧ positions.Pairwise (· < ·) :=
  ⟨by decide,
    index_shape goStrings ⟨catalogOfNames ["ASPIRIN", "PARACETAMOL", "Aspirin"], []⟩
      (ascii "aspirin") (by decide)⟩

/-- C18: for every catalog, after `initIndex` the position lists of `productNameIndex`
partition the catalog positions: a listed position is below the catalog length, its key is
the lower-cased `ProductName` of the record there, it occurs once in its list and in no
other entry; every catalog position is listed; and the index held before the call does not
influence the one built. -/
theorem index_exact (strings : StringsPkg) (st : State) (key : GoString)
    (positions : List Nat) (i : Nat)
    (hp : (key, positions) ∈ (initIndex strings st).productNameIndex) (hi : i ∈ positions) :
    (i < st.medicineData.length ∧
      (∃ e, st.medicineData[i]? = some e ∧ key = strings.ToLower e.ProductName) ∧
      positions.count i = 1 ∧
      ∀ key' positions', (key', positions') ∈ (initIndex strings st).productNameIndex →
        i ∈ positions' → key' = key ∧ positions' = positions) ∧
    (∀ j, j < st.medicineData.length →
      ∃ key' positions', (key', positions') ∈ (initIndex strings st).productNameIndex ∧
        j ∈ positions') ∧
    (∀ st', st'.medicineData = st.medicineData →
      (initIndex strings st').productNameIndex = (initIndex strings st).productNameIndex) := by
  have nd := nodup_keys_initIndex strings st
  have hget := GoMap.get?_of_mem nd hp
  obtain ⟨e, he, hkey⟩ := (mem_initIndex strings st key i).1 ⟨(key, positions), hp, rfl, hi⟩
  refine ⟨⟨(List.getElem?_eq_some_iff.1 he).1, ⟨e, he, hkey⟩, ?_, ?_⟩, ?_, ?_⟩
  · have hpw := (shapeBelow_initIndex strings st key positions hget).2.1
    exact List.count_eq_one_of_mem (hpw.imp (fun h => Nat.ne_of_lt h)) hi
  · intro key' positions' hp' hi'
    obtain ⟨e', he', hkey'⟩ :=
      (mem_initIndex strings st key' i).1 ⟨(key', positions'), hp', rfl, hi'⟩
    rw [he] at he'
    cases he'
    have hk : key' = key := hkey'.trans hkey.symm
    subst hk
    have hget' := GoMap.get?_of_mem nd hp'
    rw [hget] at hget'
    cases hget'
    exact ⟨rfl, rfl⟩
  · intro j hj
    obtain ⟨p, hpm, _, hjm⟩ := (mem_initIndex strings st
      (strings.ToLower (st.medicineData[j]).ProductName) j).2
      ⟨st.medicineData[j], List.getElem?_eq_getElem hj, rfl⟩
    exact ⟨p.1, p.2, hpm, hjm⟩
  · intro st' hst'
    simp only [initIndex, hst']

/-- Position 2 of a catalog in which one name occurs twice instantiates C18, with a stale
index in the state before the call. -/
theorem index_exact_witness :
    (2 < (catalogOfNames ["ASPIRIN", "PARACETAMOL", "Aspirin"]).length ∧
      (∃ e, (catalogOfNames ["ASPIRIN", "PARACETAMOL", "Aspirin"])[2]? = some e ∧
        ascii "aspirin" = goStrings.ToLower e.ProductName) ∧
      [0, 2].count 2 = 1 ∧
      ∀ key' positions', (key', positions') ∈ (initIndex goStrings
          ⟨catalogOfNames ["ASPIRIN", "PARACETAMOL", "Aspirin"],
            [(ascii "stale", [7])]⟩).productNameIndex →
        2 ∈ positions' → key' = ascii "aspirin" ∧ positions' = [0, 2]) ∧
    (∀ j, j < (catalogOfNames ["ASPIRIN", "PARACETAMOL", "Aspirin"]).length →
      ∃ key' positions', (key', positions') ∈ (initIndex goStrings
          ⟨catalogOfNames ["ASPIRIN", "PARACETAMOL", "Aspirin"],
            [(ascii "stale", [7])]⟩).productNameIndex ∧
        j ∈ positions') ∧
    (∀ st', st'.medicineData = catalogOfNames ["ASPIRIN", "PARACETAMOL", "Aspirin"] →
      (initIndex goStrings st').productNameIndex = (initIndex goStrings
          ⟨catalogOfNames ["ASPIRIN", "PARACETAMOL", "Aspirin"],
            [(ascii "stale", [7])]⟩).productNameIndex) :=
  index_exact goStrings
    ⟨catalogOfNames ["ASPIRIN", "PARACETAMOL", "Aspirin"], [(ascii "stale", [7])]⟩
    (ascii "aspirin") [0, 2] 2 (by decide) (by decide)

/-! ## The frame of the record parser -/

theorem take_drop_congr {α : Type} (l₁ l₂ : List α) (lo n : Nat)
    (h : ∀ k, lo ≤ k → k < lo + n → l₁.get? k = l₂.get? k) :
    (l₁.drop lo).take n = (l₂.drop lo).take n := by
  apply List.ext_getElem?
  intro k
  rw [List.getElem?_take, List.getElem?_take, List.getElem?_drop, List.getElem?_drop]
  split
  · have := h (lo + k) (by omega) (by omega)
    rwa [List.get?_eq_getElem?, List.get?_eq_getElem?] at this
  · rfl

/-- C20: for every two lines of at least 79 bytes that agree on bytes 11..57 and 59..78,
`parseFixedWidthLine` succeeds on both and returns the same record; bytes 0..10, byte 58 and
the bytes from offset 79 on play no part. -/
theorem parse_frame (strings : StringsPkg) (l₁ l₂ : GoString)
    (h₁ : 79 ≤ l₁.length) (h₂ : 79 ≤ l₂.length)
    (hleft : ∀ k, 11 ≤ k → k < 58 → l₁.get? k = l₂.get? k)
    (hright : ∀ k, 59 ≤ k → k < 79 → l₁.get? k = l₂.get? k) :
    (∃ entry, parseFixedWidthLine strings l₁ = some entry) ∧
      parseFixedWidthLine strings l₁ = parseFixedWidthLine strings l₂ := by
  rw [parse_eq_some strings l₁ h₁, parse_eq_some strings l₂ h₂]
  refine ⟨⟨_, rfl⟩, ?_⟩
  rw [take_drop_congr l₁ l₂ 11 9 (fun k hk hk' => hleft k hk (by omega)),
    take_drop_congr l₁ l₂ 20 38 (fun k hk hk' => hleft k (by omega) (by omega)),
    take_drop_congr l₁ l₂ 59 16 (fun k hk hk' => hright k hk (by omega)),
    take_drop_congr l₁ l₂ 75 4 (fun k hk hk' => hright k (by omega) (by omega))]

/-- A second sample line, equal to `sampleLine` on bytes 11..57 and 59..78 and different
everywhere else, and longer. -/
def sampleLineVariant : GoString :=
  ascii "XXXXXXXXXXX" ++ ascii "703712001" ++ ascii "ASPIRIN 300MG TABLET" ++
    List.replicate 18 32 ++ ascii "Y" ++ ascii "300MG" ++ List.replicate 11 32 ++
    ascii "TAB " ++ ascii "trailing text"

/-- The two sample lines instantiate C20. -/
theorem parse_frame_witness :
    (∃ k, sampleLine.get? k ≠ sampleLineVariant.get? k) ∧
    (∃ entry, parseFixedWidthLine goStrings sampleLine = some entry) ∧
      parseFixedWidthLine goStrings sampleLine =
        parseFixedWidthLine goStrings sampleLineVariant :=
  ⟨⟨58, by decide⟩,
    parse_frame goStrings sampleLine sampleLineVariant (by decide) (by decide)
      (by
        intro k h1 h2
        interval_cases k <;> rfl)
      (by
        intro k h1 h2
        interval_cases k <;> rfl)⟩

/-! ## The query gate of the handler -/

theorem runeCountLoop_le (s : GoString) (skip : Nat) : runeCountLoop s skip ≤ s.length := by
  induction s generalizing skip with
  | nil => simp [runeCountLoop]
  | cons b rest ih =>
    cases skip with
    | zero =>
      have := ih (runeWidth b rest - 1)
      simp only [runeCountLoop, List.length_cons]
      omega
    | succ k =>
      have := ih k
      simp only [runeCountLoop, List.length_cons]
      omega

/-- A string has at most as many characters as bytes. -/
theorem runeCount_le_length (s : GoString) : runeCount s ≤ s.length :=
  runeCountLoop_le s 0

theorem handler_short (strings : StringsPkg) (st : State) (encodeFails : Bool)
    (query : GoString) (h : query.length < 3) :
    autocompleteHandler strings st encodeFails query =
      if query = [] then .badRequest "Search term is required"
      else .badRequest "Search term must be at least 3 characters long" := by
  by_cases hq : query = []
  · simp [autocompleteHandler, hq]
  · simp [autocompleteHandler, hq, h]

theorem handler_long (strings : StringsPkg) (st : State) (encodeFails : Bool)
    (query : GoString) (h : 3 ≤ query.length) :
    autocompleteHandler strings st encodeFails query =
      match FindMedicineEntriesByKeywords strings st query with
      | none => .panic
      | some results => if encodeFails then .encodeFailed else .json results := by
  have hne : query ≠ [] := by
    intro h0; rw [h0] at h; simp at h
  have hlt : ¬ query.length < 3 := by omega
  simp [autocompleteHandler, hne, hlt]

/-- C16, as stated, fails in two ways.  When the JSON encoder fails, a term of 3 characters
is not answered with the records the search returns, but with status 500.  And the term
"€", of one character, takes 3 bytes: it is not rejected, the search is called and its
result is the response. -/
theorem handler_gate_counterexample :
    (FindMedicineEntriesByKeywords goStrings
        (initIndex goStrings ⟨catalogOfNames ["ASPIRIN 300MG TABLET"], []⟩) (ascii "asp") =
        some (catalogOfNames ["ASPIRIN 300MG TABLET"]) ∧
      autocompleteHandler goStrings
        (initIndex goStrings ⟨catalogOfNames ["ASPIRIN 300MG TABLET"], []⟩) true (ascii "asp") =
        .encodeFailed) ∧
    (runeCount euro = 1 ∧
      autocompleteHandler goStrings (initIndex goStrings ⟨[priceEntry], []⟩) false euro =
        .json [priceEntry]) := by
  decide

/-- C16 (amended): `autocompleteHandler` answers a `term` parameter that is empty or
shorter than 3 bytes with status 400, whatever the catalog and the index (the search is not
called).  It does not reject a term of at least 3 characters: it calls the search and
answers with exactly the records `FindMedicineEntriesByKeywords` returns for that term when
the JSON encoder succeeds, and with status 500 when the encoder fails; with an index built
by `initIndex` the search does return. -/
theorem handler_gate (strings : StringsPkg) (st : State) (encodeFails : Bool)
    (query : GoString) :
    (query = [] ∨ query.length < 3 →
      (∃ message, autocompleteHandler strings st encodeFails query = .badRequest message) ∧
      ∀ st' encodeFails', autocompleteHandler strings st' encodeFails' query =
        autocompleteHandler strings st encodeFails query) ∧
    (3 ≤ runeCount query →
      (¬ ∃ message, autocompleteHandler strings st encodeFails query = .badRequest message) ∧
      (∀ results, FindMedicineEntriesByKeywords strings st query = some results →
        autocompleteHandler strings st encodeFails query =
          if encodeFails then .encodeFailed else .json results) ∧
      ∃ results,
        FindMedicineEntriesByKeywords strings (initIndex strings st) query = some results ∧
        autocompleteHandler strings (initIndex strings st) encodeFails query =
          if encodeFails then .encodeFailed else .json results) := by
  constructor
  · intro h
    have hlt : query.length < 3 := by
      rcases h with h | h
      · rw [h]; simp
      · exact h
    refine ⟨?_, ?_⟩
    · rw [handler_short strings st encodeFails query hlt]
      by_cases hq : query = []
      · exact ⟨_, by rw [if_pos hq]⟩
      · exact ⟨_, by rw [if_neg hq]⟩
    · intro st' encodeFails'
      rw [handler_short strings st' encodeFails' query hlt,
        handler_short strings st encodeFails query hlt]
  · intro h
    have h3 : 3 ≤ query.length := Nat.le_trans h (runeCount_le_length query)
    have hres : ∀ (st₀ : State) (results : List MedicineEntry),
        FindMedicineEntriesByKeywords strings st₀ query = some results →
        autocompleteHandler strings st₀ encodeFails query =
          if encodeFails then .encodeFailed else .json results := by
      intro st₀ results hfind
      rw [handler_long strings st₀ encodeFails query h3, hfind]
    refine ⟨?_, hres st, ?_⟩
    · rintro ⟨message, hm⟩
      rw [handler_long strings st encodeFails query h3] at hm
      cases hf : FindMedicineEntriesByKeywords strings st query with
      | none => rw [hf] at hm; cases hm
      | some results =>
        rw [hf] at hm
        cases encodeFails <;> simp at hm
    · obtain ⟨results, hfind, _⟩ := find_initIndex strings st query
      exact ⟨results, hfind, hres _ results hfind⟩

/-- The terms "", "as" and "asp" on the catalog of "ASPIRIN 300MG TABLET" instantiate the
amended C16. -/
theorem handler_gate_witness :
    (autocompleteHandler goStrings
        (initIndex goStrings ⟨catalogOfNames ["ASPIRIN 300MG TABLET"], []⟩) false (ascii "") =
        .badRequest "Search term is required" ∧
      autocompleteHandler goStrings
        (initIndex goStrings ⟨catalogOfNames ["ASPIRIN 300MG TABLET"], []⟩) false (ascii "as") =
        .badRequest "Search term must be at least 3 characters long" ∧
      autocompleteHandler goStrings
        (initIndex goStrings ⟨catalogOfNames ["ASPIRIN 300MG TABLET"], []⟩) false (ascii "asp") =
        .json (catalogOfNames ["ASPIRIN 300MG TABLET"])) ∧
    ((∃ message, autocompleteHandler goStrings
        (initIndex goStrings ⟨catalogOfNames ["ASPIRIN 300MG TABLET"], []⟩) false (ascii "as") =
        .badRequest message) ∧
      ∀ st' encodeFails', autocompleteHandler goStrings st' encodeFails' (ascii "as") =
        autocompleteHandler goStrings
          (initIndex goStrings ⟨catalogOfNames ["ASPIRIN 300MG TABLET"], []⟩) false
          (ascii "as")) ∧
    ¬ ∃ message, autocompleteHandler goStrings
        (initIndex goStrings ⟨catalogOfNames ["ASPIRIN 300MG TABLET"], []⟩) false (ascii "asp") =
        .badRequest message :=
  ⟨by decide,
    (handler_gate goStrings (initIndex goStrings ⟨catalogOfNames ["ASPIRIN 300MG TABLET"], []⟩)
      false (ascii "as")).1 (Or.inr (by decide)),
    ((handler_gate goStrings
      (initIndex goStrings ⟨catalogOfNames ["ASPIRIN 300MG TABLET"], []⟩)
      false (ascii "asp")).2 (by decide)).1⟩

end Nappi
